import Mathlib

/-!
Verification of the B+-tree node-management engine of `realm-core`
(`src/realm/column.cpp`): the bulk tree builder `ColumnBase::build`, the
root-growth operation `ColumnBaseSimple::introduce_new_root`, the slice
exporter entry point `ColumnBaseSimple::write`, and the default
`ColumnBase` capability surface (`is_nullable`, `is_null`, `set_null`,
`set_string`).

Two complementary shallow embeddings of `ColumnBase::build` are developed:

* a pure one (`build`), in which the refs returned by the Node Store are
  replaced by the trees they denote, used for the structural claims
  (leaf-size sequences, recorded totals, heights, balance);
* an effectful one (`buildE`), in which the Node Store (slab allocator)
  is explicit state and every operation the source marks `// Throws`
  goes through a failure-injection budget, used for the error-handling
  claims (cleanup on failure, no leaked persisted nodes).

`REALM_MAX_BPNODE_SIZE` (the fan-out, ≥ 2 in every build of the source;
its default is 1000) is the parameter `F` throughout.
-/

namespace Realm

/-- A B+-tree node as persisted by `ColumnBase::build`: a leaf materialized by
`handler.create_leaf(size)` (its payload is opaque to the engine; only the
requested size matters here), or an inner node
(`Array::type_InnerBptreeNode`) whose slot sequence is
`[1 + 2*elemsPerChild, child refs .., 1 + 2*total]`; the first and last
inline slots are recorded in the `inner` constructor's `Nat` fields and the
ref slots are replaced by the child trees they reference. -/
inductive BpNode where
  | leaf (size : Nat)
  | inner (elemsPerChild : Nat) (children : List BpNode) (total : Nat)

namespace BpNode

mutual

/-- Height of a tree: 1 for a bare leaf, one more than the tallest child for
an inner node. -/
def height : BpNode → Nat
  | .leaf _ => 1
  | .inner _ cs _ => heightMax cs + 1

/-- Maximum height over a list of trees. -/
def heightMax : List BpNode → Nat
  | [] => 0
  | c :: cs => max (height c) (heightMax cs)

end

mutual

/-- The sizes requested from `handler.create_leaf`, in call order: `build`
creates leaves strictly left to right, so the in-order leaves of the result
tree list the `create_leaf` calls in order. -/
def leafSizes : BpNode → List Nat
  | .leaf n => [n]
  | .inner _ cs _ => leafSizesList cs

/-- Concatenated leaf sizes of a list of trees, left to right. -/
def leafSizesList : List BpNode → List Nat
  | [] => []
  | c :: cs => leafSizes c ++ leafSizesList cs

end

/-- The recorded total-element count: the final inline slot for an inner
node, the leaf's size for a leaf. -/
def total : BpNode → Nat
  | .leaf n => n
  | .inner _ _ t => t

/-- All trees in the list have height `h`. -/
def allHeight (h : Nat) (cs : List BpNode) : Bool :=
  cs.all (fun c => height c == h)

mutual

/-- Sibling height uniformity: under every inner node, all children have the
same height (namely the node's height minus one) and are themselves
balanced, so any two subtrees at the same depth have the same height. -/
def balanced : BpNode → Bool
  | .leaf _ => true
  | .inner _ cs _ => allBalanced cs && allHeight (heightMax cs) cs

/-- All trees in the list are balanced. -/
def allBalanced : List BpNode → Bool
  | [] => true
  | c :: cs => balanced c && allBalanced cs

end

/-- Whether the node is an inner B+-tree node (`Array::is_inner_bptree_node`). -/
def isInner : BpNode → Bool
  | .leaf _ => false
  | .inner _ _ _ => true

end BpNode

/-! ### Pure embedding of `ColumnBase::build` (column.cpp:153-213)

The source builds bottom-up: it creates one leaf, then repeatedly wraps the
node built so far (`node`, the "spine") as the first child of a new inner
node at the next height, filling that inner node with further same-height
subtrees built by recursive calls `build(&rest_size, height, ...)` until the
remaining count is exhausted or `REALM_MAX_BPNODE_SIZE` children are placed.
With `fixed_height = fh > 0` the loop stops exactly when `height == fh`;
with `fixed_height = 0` it stops when `rest_size == 0`.

The spine state after completing the stage at height `h` is exactly the
result of the same computation run with `fixed_height = h`, which makes the
`fh > 0` case (`buildF`) structurally recursive in `fh`.  The inner
`while (rest_size > 0 && num_children != REALM_MAX_BPNODE_SIZE)` loop is
`buildChildren`, parametrized by the recursive call (`step`) and by the
number of child slots still free (`F - 1` after the spine is placed). -/

/-- The `while (rest_size > 0 && num_children != REALM_MAX_BPNODE_SIZE)`
loop of `build`: builds further children with `step` (the recursive
`build(&rest_size, height, ...)` call) while elements remain and `slots`
child slots are free, returning the children in order and the remaining
count. -/
def buildChildren (step : Nat → BpNode × Nat) : Nat → Nat → List BpNode × Nat
  | 0, rest => ([], rest)
  | slots + 1, rest =>
      if rest = 0 then ([], rest)
      else
        let (c, rest') := step rest
        let (cs, rest'') := buildChildren step slots rest'
        (c :: cs, rest'')

/-- `ColumnBase::build` with `fixed_height = fh ≥ 1` (the form taken by all
recursive calls): returns the built subtree of height exactly `fh` and the
updated remaining count.  `fh = 1` creates one leaf of size
`min(REALM_MAX_BPNODE_SIZE, rest_size)`; `fh = h + 1` first runs the stages
up to height `h` (the spine), then wraps the spine into an inner node at
height `h + 1` whose first slot encodes `elems_per_child = F^h` and whose
closing slot encodes `orig_rest_size - rest_size`, filling up to `F - 1`
further height-`h` children.  (`fh = 0` is dispatched by `build` below, not
by this function; the `0` case here is arbitrary.) -/
def buildF (F : Nat) : Nat → Nat → BpNode × Nat
  | 0, rest => (.leaf (min F rest), rest - min F rest)
  | 1, rest => (.leaf (min F rest), rest - min F rest)
  | h + 2, rest =>
      let (node, r) := buildF F (h + 1) rest
      let (cs, r') := buildChildren (fun q => buildF F (h + 1) q) (F - 1) r
      (.inner (F ^ (h + 1)) (node :: cs) (rest - r'), r')

/-- The outer `for (;;)` loop of `ColumnBase::build` in the
`fixed_height = 0` case: keeps wrapping the spine until the remaining count
reaches 0.  Each iteration with `rest > 0` consumes at least one element
(for `F ≥ 2`), so `fuel` = the initial count always suffices; the fuel-
exhaustion branch is unreachable in the source configuration
(`REALM_MAX_BPNODE_SIZE ≥ 2`). -/
def build0Go (F : Nat) : Nat → BpNode → Nat → Nat → Nat → BpNode × Nat
  | _, node, _, 0, _ => (node, 0)
  | 0, node, _, rest, _ => (node, rest)
  | fuel + 1, node, h, rest, orig =>
      let (cs, r') := buildChildren (fun q => buildF F h q) (F - 1) rest
      build0Go F fuel (.inner (F ^ h) (node :: cs) (orig - r')) (h + 1) r' orig

/-- `ColumnBase::build(rest_size_ptr, fixed_height, alloc, handler)`
(column.cpp:153-213), pure view: returns the built tree and the value
written back through `rest_size_ptr`.  `F` is `REALM_MAX_BPNODE_SIZE`. -/
def build (F : Nat) (rest : Nat) (fixedHeight : Nat) : BpNode × Nat :=
  if fixedHeight = 0 then
    build0Go F rest (.leaf (min F rest)) 1 (rest - min F rest) rest
  else
    buildF F fixedHeight rest

/-! ### Structural lemmas about the pure builder -/

namespace BpNode

theorem allBalanced_iff (l : List BpNode) :
    allBalanced l = true ↔ ∀ c ∈ l, balanced c = true := by
  induction l with
  | nil => simp [allBalanced]
  | cons c cs ih => simp [allBalanced, ih]

theorem allHeight_iff (h : Nat) (l : List BpNode) :
    allHeight h l = true ↔ ∀ c ∈ l, height c = h := by
  simp [allHeight, List.all_eq_true]

theorem heightMax_cons (c : BpNode) (cs : List BpNode) :
    heightMax (c :: cs) = max (height c) (heightMax cs) := by
  simp [heightMax]

theorem heightMax_of_all (h : Nat) (l : List BpNode)
    (hall : ∀ c ∈ l, height c = h) : heightMax l = h ∨ l = [] := by
  induction l with
  | nil => exact Or.inr rfl
  | cons c cs ih =>
    left
    rcases ih (fun x hx => hall x (List.mem_cons_of_mem _ hx)) with h1 | h1
    · rw [heightMax_cons, hall c (List.mem_cons_self c cs), h1, Nat.max_self]
    · subst h1
      simp [heightMax, hall c (List.mem_cons_self c [])]

theorem mem_leafSizesList (s : Nat) (c : BpNode) (cs : List BpNode) :
    s ∈ leafSizesList (c :: cs) ↔ s ∈ leafSizes c ∨ s ∈ leafSizesList cs := by
  simp [leafSizesList, List.mem_append]

theorem sum_leafSizesList (c : BpNode) (cs : List BpNode) :
    (leafSizesList (c :: cs)).sum = (leafSizes c).sum + (leafSizesList cs).sum := by
  simp [leafSizesList]

/-- A balanced inner node from a same-height, individually balanced spine
and children. -/
theorem balanced_inner (e t h : Nat) (node : BpNode) (cs : List BpNode)
    (hn : height node = h) (hbn : balanced node = true)
    (hcs : ∀ c ∈ cs, height c = h ∧ balanced c = true) :
    balanced (.inner e (node :: cs) t) = true ∧
      height (.inner e (node :: cs) t) = h + 1 := by
  have hmax : heightMax (node :: cs) = h := by
    rcases heightMax_of_all h (node :: cs) (by
      intro c hc
      rcases List.mem_cons.1 hc with rfl | hc
      · exact hn
      · exact (hcs c hc).1) with h1 | h1
    · exact h1
    · cases h1
  constructor
  · show (allBalanced (node :: cs) && allHeight (heightMax (node :: cs)) (node :: cs)) = true
    rw [hmax]
    simp only [Bool.and_eq_true]
    refine ⟨?_, ?_⟩
    · exact (allBalanced_iff _).2 (by
        intro c hc
        rcases List.mem_cons.1 hc with rfl | hc
        · exact hbn
        · exact (hcs c hc).2)
    · exact (allHeight_iff _ _).2 (by
        intro c hc
        rcases List.mem_cons.1 hc with rfl | hc
        · exact hn
        · exact (hcs c hc).1)
  · show heightMax (node :: cs) + 1 = h + 1
    rw [hmax]

end BpNode

/-- Arithmetic of capped consumption: taking `min a r` and then up to `b`
more from the remainder takes `min (a + b) r` in all. -/
theorem min_consume (a b r : Nat) :
    min a r + min b (r - min a r) = min (a + b) r := by
  rcases Nat.le_total a r with h | h
  · rcases Nat.le_total b (r - a) with h2 | h2 <;> omega
  · omega

/-- The specification transported through one `while` loop of `build`:
if each `step` call consumes `min cap rest` and returns a balanced subtree
of height `h` whose leaf sizes sum to what it consumed (each at most `F`)
and whose recorded total equals what it consumed, then the loop with
`slots` free child slots consumes `min (slots * cap) rest` and its children
all satisfy the same bounds. -/
theorem buildChildren_spec (step : Nat → BpNode × Nat) (cap h F : Nat)
    (hstep : ∀ r, (step r).2 = r - min cap r ∧ (step r).1.height = h ∧
      (step r).1.balanced = true ∧ ((step r).1.leafSizes).sum = min cap r ∧
      (∀ s ∈ (step r).1.leafSizes, s ≤ F) ∧ (step r).1.total = min cap r) :
    ∀ slots r,
      (buildChildren step slots r).2 = r - min (slots * cap) r ∧
      (∀ c ∈ (buildChildren step slots r).1, c.height = h ∧ c.balanced = true) ∧
      (BpNode.leafSizesList (buildChildren step slots r).1).sum
        = min (slots * cap) r ∧
      (∀ s ∈ BpNode.leafSizesList (buildChildren step slots r).1, s ≤ F) := by
  intro slots
  induction slots with
  | zero =>
    intro r
    simp [buildChildren, BpNode.leafSizesList]
  | succ slots ih =>
    intro r
    by_cases hr : r = 0
    · subst hr
      simp [buildChildren, BpNode.leafSizesList]
    · rcases hsr : step r with ⟨c, r'⟩
      obtain ⟨h1, h2, h3, h4, h5, h6⟩ := hstep r
      rw [hsr] at h1 h2 h3 h4 h5 h6
      simp only at h1 h2 h3 h4 h5 h6
      rcases hrec : buildChildren step slots r' with ⟨cs, r''⟩
      obtain ⟨g1, g2, g3, g4⟩ := ih r'
      rw [hrec] at g1 g2 g3 g4
      simp only at g1 g2 g3 g4
      have hunfold : buildChildren step (slots + 1) r = (c :: cs, r'') := by
        simp [buildChildren, hr, hsr, hrec]
      rw [hunfold]
      subst h1
      refine ⟨?_, ?_, ?_, ?_⟩
      · simp only
        rw [g1, Nat.succ_mul, Nat.add_comm (slots * cap) cap]
        omega
      · intro x hx
        rcases List.mem_cons.1 hx with rfl | hx
        · exact ⟨h2, h3⟩
        · exact g2 x hx
      · simp only
        rw [BpNode.sum_leafSizesList, h4, g3, min_consume cap (slots * cap) r,
          Nat.add_comm cap (slots * cap), Nat.succ_mul]
      · intro s hs
        rcases (BpNode.mem_leafSizesList s c cs).1 hs with hs | hs
        · exact h5 s hs
        · exact g4 s hs

/-- Full specification of `buildF`: a call with `fixed_height = fh ≥ 1` and
remaining count `rest` consumes `min (F ^ fh) rest` elements, returns a
balanced subtree of height exactly `fh` whose leaf sizes (the `create_leaf`
requests, in order) sum to the consumed count with every size at most `F`,
and records the consumed count as its total. -/
theorem buildF_spec (F : Nat) (fh : Nat) (hfh : 1 ≤ fh) :
    ∀ rest,
      (buildF F fh rest).2 = rest - min (F ^ fh) rest ∧
      (buildF F fh rest).1.height = fh ∧
      (buildF F fh rest).1.balanced = true ∧
      ((buildF F fh rest).1.leafSizes).sum = min (F ^ fh) rest ∧
      (∀ s ∈ (buildF F fh rest).1.leafSizes, s ≤ F) ∧
      (buildF F fh rest).1.total = min (F ^ fh) rest := by
  induction fh, hfh using Nat.le_induction with
  | base =>
    intro rest
    simp [buildF, BpNode.height, BpNode.balanced, BpNode.leafSizes,
      BpNode.total, Nat.pow_one]
  | succ fh hfh ih =>
    intro rest
    obtain ⟨h, rfl⟩ := Nat.exists_eq_add_of_le hfh
    rcases hspine : buildF F (1 + h) rest with ⟨node, r⟩
    obtain ⟨s1, s2, s3, s4, s5, s6⟩ := ih rest
    rw [hspine] at s1 s2 s3 s4 s5 s6
    simp only at s1 s2 s3 s4 s5 s6
    have hch := buildChildren_spec (fun q => buildF F (1 + h) q) (F ^ (1 + h))
      (1 + h) F (fun r0 => ih r0) (F - 1) r
    rcases hcs : buildChildren (fun q => buildF F (1 + h) q) (F - 1) r with ⟨cs, r'⟩
    rw [hcs] at hch
    simp only at hch
    obtain ⟨c1, c2, c3, c4⟩ := hch
    have harith : 1 + h + 1 = h + 2 := by omega
    have hunfold : buildF F (1 + h + 1) rest
        = (.inner (F ^ (h + 1)) (node :: cs) (rest - r'), r') := by
      rw [harith]
      show buildF F (h + 2) rest = _
      rw [buildF]
      have h1h : h + 1 = 1 + h := by omega
      rw [h1h, hspine]
      simp only
      rw [hcs]
    rw [hunfold]
    have hpow : F ^ (1 + h) + (F - 1) * F ^ (1 + h) = F ^ (1 + h + 1) := by
      rcases Nat.eq_zero_or_pos F with hF0 | hF0
      · subst hF0
        simp [Nat.pow_succ, Nat.zero_pow]
      · have : F ^ (1 + h) + (F - 1) * F ^ (1 + h) = F * F ^ (1 + h) := by
          have hF1 : F - 1 + 1 = F := Nat.succ_pred_eq_of_pos hF0
          calc F ^ (1 + h) + (F - 1) * F ^ (1 + h)
              = (F - 1 + 1) * F ^ (1 + h) := by ring
            _ = F * F ^ (1 + h) := by rw [hF1]
        rw [this, Nat.pow_succ]
        ring
    have hbal := BpNode.balanced_inner (F ^ (h + 1)) (rest - r') (1 + h) node cs
      s2 s3 c2
    have hrtot : rest - r' = min (F ^ (1 + h + 1)) rest := by
      rw [c1, s1]
      have := min_consume (F ^ (1 + h)) ((F - 1) * F ^ (1 + h)) rest
      rw [hpow] at this
      omega
    refine ⟨?_, ?_, ?_, ?_, ?_, ?_⟩
    · simp only
      rw [c1, s1]
      have := min_consume (F ^ (1 + h)) ((F - 1) * F ^ (1 + h)) rest
      rw [hpow] at this
      omega
    · simp only
      rw [hbal.2]
    · exact hbal.1
    · show (BpNode.leafSizesList (node :: cs)).sum = _
      rw [BpNode.sum_leafSizesList, s4, c3, s1,
        min_consume (F ^ (1 + h)) ((F - 1) * F ^ (1 + h)) rest, hpow]
    · intro s hs
      rcases (BpNode.mem_leafSizesList s node cs).1 hs with hs | hs
      · exact s5 s hs
      · exact c4 s hs
    · show rest - r' = _
      exact hrtot

/-- Full specification of the `fixed_height = 0` outer loop: starting from a
spine of height `h` into which `min (F ^ h) orig` of the original `orig`
elements have already been consumed, the loop drives the remaining count to
0 and returns a balanced tree of height `max h (Nat.clog F orig)` whose
leaf sizes sum to `orig` (each at most `F`) and whose recorded total is
`orig`; the result is the spine itself when nothing remains and an inner
node otherwise. -/
theorem build0Go_spec (F : Nat) (hF : 2 ≤ F) :
    ∀ fuel (node : BpNode) h rest orig,
      1 ≤ h →
      rest = orig - min (F ^ h) orig →
      node.height = h → node.balanced = true →
      (node.leafSizes).sum = orig - rest →
      (∀ s ∈ node.leafSizes, s ≤ F) →
      node.total = orig - rest →
      rest ≤ fuel →
      (build0Go F fuel node h rest orig).2 = 0 ∧
      (build0Go F fuel node h rest orig).1.height = max h (Nat.clog F orig) ∧
      (build0Go F fuel node h rest orig).1.balanced = true ∧
      ((build0Go F fuel node h rest orig).1.leafSizes).sum = orig ∧
      (∀ s ∈ (build0Go F fuel node h rest orig).1.leafSizes, s ≤ F) ∧
      (build0Go F fuel node h rest orig).1.total = orig ∧
      (rest = 0 → (build0Go F fuel node h rest orig).1 = node) ∧
      (0 < rest → (build0Go F fuel node h rest orig).1.isInner = true) := by
  have hF1 : 1 < F := hF
  intro fuel
  induction fuel with
  | zero =>
    intro node h rest orig hh hrest hht hbal hsum hle htot hfuel
    have hr0 : rest = 0 := Nat.le_zero.1 hfuel
    subst hr0
    have hcap : orig ≤ F ^ h := by omega
    have hclog : Nat.clog F orig ≤ h := (Nat.le_pow_iff_clog_le hF1).1 hcap
    have hmax : max h (Nat.clog F orig) = h := Nat.max_eq_left hclog
    have hout : build0Go F 0 node h 0 orig = (node, 0) := by
      simp [build0Go]
    rw [hout, hmax]
    refine ⟨rfl, hht, hbal, ?_, hle, ?_, fun _ => rfl, ?_⟩
    · show node.leafSizes.sum = orig
      omega
    · show node.total = orig
      omega
    · intro hcon
      exact absurd hcon (by omega)
  | succ fuel ih =>
    intro node h rest orig hh hrest hht hbal hsum hle htot hfuel
    rcases Nat.eq_zero_or_pos rest with hr0 | hrpos
    · subst hr0
      have hcap : orig ≤ F ^ h := by omega
      have hclog : Nat.clog F orig ≤ h := (Nat.le_pow_iff_clog_le hF1).1 hcap
      have hmax : max h (Nat.clog F orig) = h := Nat.max_eq_left hclog
      have hout : build0Go F (fuel + 1) node h 0 orig = (node, 0) := by
        simp [build0Go]
      rw [hout, hmax]
      refine ⟨rfl, hht, hbal, ?_, hle, ?_, fun _ => rfl, ?_⟩
      · show node.leafSizes.sum = orig
        omega
      · show node.total = orig
        omega
      · intro hcon
        exact absurd hcon (by omega)
    · -- one more wrap: build children at height h, recurse at height h + 1
      have hcap : F ^ h < orig := by omega
      have hch := buildChildren_spec (fun q => buildF F h q) (F ^ h) h F
        (fun r0 => buildF_spec F h hh r0) (F - 1) rest
      rcases hcs : buildChildren (fun q => buildF F h q) (F - 1) rest with ⟨cs, r'⟩
      rw [hcs] at hch
      simp only at hch
      obtain ⟨c1, c2, c3, c4⟩ := hch
      have hpow : F ^ h + (F - 1) * F ^ h = F ^ (h + 1) := by
        have hFp : 0 < F := by omega
        have hF1' : F - 1 + 1 = F := Nat.succ_pred_eq_of_pos hFp
        calc F ^ h + (F - 1) * F ^ h = (F - 1 + 1) * F ^ h := by ring
          _ = F * F ^ h := by rw [hF1']
          _ = F ^ (h + 1) := by rw [Nat.pow_succ]; ring
      have hr' : r' = orig - min (F ^ (h + 1)) orig := by
        have hmc := min_consume (F ^ h) ((F - 1) * F ^ h) orig
        rw [hpow] at hmc
        have hmin : min (F ^ h) orig = F ^ h := by omega
        rw [hmin] at hmc
        omega
      have hcons : 0 < min ((F - 1) * F ^ h) rest := by
        have h1 : 1 ≤ (F - 1) * F ^ h := by
          have : 0 < F - 1 := by omega
          have : 0 < F ^ h := Nat.pos_pow_of_pos h (by omega)
          exact Nat.one_le_iff_ne_zero.2 (Nat.mul_ne_zero (by omega) (by omega))
        omega
      have hbal2 := BpNode.balanced_inner (F ^ h) (orig - r') h node cs hht hbal c2
      have hunfold : build0Go F (fuel + 1) node h rest orig
          = build0Go F fuel (.inner (F ^ h) (node :: cs) (orig - r')) (h + 1)
            r' orig := by
        rcases rest with _ | rr
        · omega
        · simp only [build0Go, hcs]
      have ihres := ih (.inner (F ^ h) (node :: cs) (orig - r')) (h + 1) r' orig
        (by omega) hr' hbal2.2 hbal2.1
        (by
          show (BpNode.leafSizesList (node :: cs)).sum = orig - r'
          rw [BpNode.sum_leafSizesList, hsum, c3]
          omega)
        (by
          intro s hs
          rcases (BpNode.mem_leafSizesList s node cs).1 hs with hs | hs
          · exact hle s hs
          · exact c4 s hs)
        (by show orig - r' = orig - r'; rfl)
        (by omega)
      rw [hunfold]
      have hclog : h < Nat.clog F orig := by
        by_contra hcon
        push_neg at hcon
        have := (Nat.le_pow_iff_clog_le hF1).2 hcon
        omega
      have hmax : max (h + 1) (Nat.clog F orig) = max h (Nat.clog F orig) := by
        omega
      obtain ⟨i1, i2, i3, i4, i5, i6, i7, i8⟩ := ihres
      refine ⟨i1, by rw [i2, hmax], i3, i4, i5, i6, ?_, ?_⟩
      · intro hc
        omega
      · intro _
        rcases Nat.eq_zero_or_pos r' with hr'0 | hr'pos
        · rw [i7 hr'0]
          rfl
        · exact i8 hr'pos

/-! ### Claim C6 (claim C1's theorem appears after the effectful/pure
simulation lemmas at the end of the file, which its statement uses) -/

/-- **C6.** For all `n ≥ 1` and fan-out `F = REALM_MAX_BPNODE_SIZE ≥ 2`, the
tree produced by `build(&n, 0, alloc, handler)` has height
`ceil(log_F n)` — i.e. `Nat.clog F n`, with the convention (stated by the
claim itself) that the height is 1, a bare leaf, exactly when `n ≤ F` —
and every subtree at the same depth has the same height as its siblings
(`balanced`). -/
theorem build_height_deterministic (F n : Nat) (hF : 2 ≤ F) (hn : 1 ≤ n) :
    (build F n 0).1.height = max 1 (Nat.clog F n) ∧
    ((build F n 0).1.height = 1 ↔ n ≤ F) ∧
    ((build F n 0).1.isInner = false ↔ n ≤ F) ∧
    (build F n 0).1.balanced = true := by
  have hF1 : 1 < F := hF
  have hspec := build0Go_spec F hF n (.leaf (min F n)) 1 (n - min F n) n
    (le_refl 1) (by rw [Nat.pow_one]) rfl rfl
    (by show [min F n].sum = n - (n - min F n); simp; omega)
    (by intro s hs; simp [BpNode.leafSizes] at hs; omega)
    (by show min F n = n - (n - min F n); omega)
    (by omega)
  obtain ⟨_, h2, h3, _, _, _, h7, h8⟩ := hspec
  have hbuild : build F n 0
      = build0Go F n (.leaf (min F n)) 1 (n - min F n) n := by
    simp [build]
  rw [hbuild]
  have hclogF : Nat.clog F n ≤ 1 ↔ n ≤ F := by
    rw [← Nat.le_pow_iff_clog_le hF1, Nat.pow_one]
  refine ⟨h2, ?_, ?_, h3⟩
  · rw [h2]
    constructor
    · intro hm
      have : Nat.clog F n ≤ 1 := by omega
      exact hclogF.1 this
    · intro hle
      have := hclogF.2 hle
      omega
  · constructor
    · intro hinner
      by_contra hcon
      push_neg at hcon
      have hpos : 0 < n - min F n := by omega
      rw [h8 hpos] at hinner
      cases hinner
    · intro hle
      have hz : n - min F n = 0 := by omega
      rw [h7 hz]
      rfl

/-- Witness for C6 at `F = 3`, `n = 20` (height `clog 3 20 = 3`). -/
theorem build_height_deterministic_witness :
    (2 ≤ 3 ∧ 1 ≤ 20) ∧
    ((build 3 20 0).1.height = max 1 (Nat.clog 3 20) ∧
      ((build 3 20 0).1.height = 1 ↔ 20 ≤ 3) ∧
      ((build 3 20 0).1.isInner = false ↔ 20 ≤ 3) ∧
      (build 3 20 0).1.balanced = true) :=
  ⟨⟨by decide, by decide⟩, build_height_deterministic 3 20 (by decide) (by decide)⟩

/-! ### Effectful embedding: the Node Store as explicit state

For the error-handling claims the Node Store (the slab allocator behind
`Array`) is made explicit: a store maps even, non-zero refs to persisted
array nodes, and every operation the source marks `// Throws`
(`Array::create`, `Array::add`, `handler.create_leaf`, `new BpTreeNode`,
`Array::update_parent`) passes through a failure-injection budget — `none`
injects no failure, `some k` makes the `(k+1)`-th throwing operation throw.
An exception carries no value in C++ but leaves the mutated global store
behind, so a failing computation returns the state at the moment the
exception escapes the modelled function. -/

/-- `Array` node kinds: `type_Normal` (no refs: leaves of integer columns
and the general-form offsets side array), `type_HasRefs`, and
`type_InnerBptreeNode` (inner B+-tree node; has refs). -/
inductive ArrType where
  | normal
  | withRefs
  | innerBptree
  deriving DecidableEq, Repr

/-- A persisted array node: its kind and its 64-bit slots.  Inline slots are
odd (`1 + 2v`), ref slots even (`from_ref` is the identity on the even ref
value). -/
structure ArrNode where
  typ : ArrType
  slots : List Int
  deriving DecidableEq, Repr

/-- The Node Store: an association list from refs to nodes, newest first. -/
abbrev Store := List (Nat × ArrNode)

namespace Store

/-- Look a ref up in the store. -/
def find : Store → Nat → Option ArrNode
  | [], _ => none
  | (k, a) :: ns, r => if k = r then some a else find ns r

/-- Free one node (first entry with the given ref). -/
def free : Store → Nat → Store
  | [], _ => []
  | (k, a) :: ns, r => if k = r then ns else (k, a) :: free ns r

/-- `Array::add` on a persisted node: append one slot to the entry with the
given ref (the allocator hands out each ref once, so at most one entry
matches). -/
def push : Store → Nat → Int → Store
  | [], _, _ => []
  | (k, a) :: ns, r, v =>
      if k = r then (k, ⟨a.typ, a.slots ++ [v]⟩) :: push ns r v
      else (k, a) :: push ns r v

end Store

/-- The child refs a node owns: for an array with refs, every even non-zero
slot; a `type_Normal` array owns no children (its slots are payload, as for
the general-form offsets array whose raw entries may be even). -/
def refSlots (a : ArrNode) : List Nat :=
  if a.typ = .normal then []
  else (a.slots.filter fun s => s % 2 == 0 && s != 0).map Int.toNat

/-- `Array::destroy_deep(ref, alloc)`: recursively free a node and every
child it owns.  `fuel` bounds the recursion depth; any fuel at least the
depth of the owned subtree computes the true result (the source recursion
terminates because the stores it encounters are acyclic). -/
def destroyDeepF : Nat → Nat → Store → Store
  | 0, _, ns => ns
  | fuel + 1, r, ns =>
    match ns.find r with
    | none => ns
    | some a => (refSlots a).foldl (fun acc c => destroyDeepF fuel c acc) (ns.free r)

/-- Engine state: the Node Store, the allocator's fresh-ref counter, the
failure-injection budget, and the log of `create_leaf` request sizes in
call order. -/
structure St where
  store : Store
  next : Nat
  budget : Option Nat
  calls : List Nat
  deriving DecidableEq, Repr

/-- The ref the allocator hands out next: even and non-zero. -/
def St.freshRef (st : St) : Nat := 2 * st.next + 2

/-- One potentially-throwing step: with budget `none` nothing ever throws;
with `some k` the step throws once `k` reaches 0, else decrements it. -/
def tick (st : St) : Except St St :=
  match st.budget with
  | none => .ok st
  | some 0 => .error st
  | some (k + 1) => .ok { st with budget := some k }

/-- `Array::create(kind)` — may throw; on success persists a fresh empty
node and returns its ref. -/
def allocNode (t : ArrType) (st : St) : Except St (Nat × St) :=
  match tick st with
  | .error st' => .error st'
  | .ok st' =>
      .ok (st'.freshRef,
        { st' with
          store := (st'.freshRef, ⟨t, []⟩) :: st'.store
          next := st'.next + 1 })

/-- `Array::add(value)` — may throw; on success appends the slot to the
node. -/
def appendSlot (r : Nat) (v : Int) (st : St) : Except St St :=
  match tick st with
  | .error st' => .error st'
  | .ok st' => .ok { st' with store := st'.store.push r v }

/-- `handler.create_leaf(size)` — may throw; on success persists one leaf
node (its payload is opaque to the engine: a `type_Normal` node owning no
children) and returns its ref.  The requested size is logged in call
order. -/
def createLeafE (size : Nat) (st : St) : Except St (Nat × St) :=
  allocNode .normal { st with calls := st.calls ++ [size] }

/-- `Array::destroy_deep` on the engine state. -/
def destroyDeepSt (r : Nat) (st : St) : St :=
  { st with store := destroyDeepF st.store.length r st.store }

/-- Effectful form of the `while` loop of `build` (column.cpp:177-190):
each iteration builds one more child with `step` (the recursive
`build(&rest_size, height, ...)` call), then appends its ref to the inner
node; if the append throws, the already-built child is destroyed
(`Array::destroy_deep(child, alloc)`, column.cpp:184-187) before the
exception propagates. -/
def buildChildrenE (step : Nat → St → Except St (Nat × Nat × St))
    (inner : Nat) : Nat → Nat → St → Except St (Nat × St)
  | 0, rest, st => .ok (rest, st)
  | slots + 1, rest, st =>
    if rest = 0 then .ok (rest, st)
    else
      match step rest st with
      | .error st' => .error st'
      | .ok (child, rest', st') =>
        match appendSlot inner (child : Int) st' with
        | .error st'' => .error (destroyDeepSt child st'')
        | .ok st'' => buildChildrenE step inner slots rest' st''

/-- Effectful form of one iteration of the outer `for (;;)` loop of `build`
(column.cpp:168-203): wrap the spine `node` (height `h`) into a fresh inner
node with first slot `1 + 2*F^h`, attach the spine, fill further children,
and close with the total slot `1 + 2*(orig - rest')`.  The error arms are
the source's `catch` blocks: a failure inside the stage destroys the inner
node under construction (`new_inner_node.destroy_deep()`, column.cpp:195-198)
and, when the spine has not yet been attached (`node != 0`,
column.cpp:207-211), the spine as well. -/
def buildStageE (step : Nat → St → Except St (Nat × Nat × St))
    (F h : Nat) (node : Nat) (rest orig : Nat) (st : St) :
    Except St (Nat × Nat × St) :=
  match allocNode .innerBptree st with
  | .error st' => .error (destroyDeepSt node st')
  | .ok (inner, st1) =>
    match appendSlot inner (1 + 2 * (F ^ h : Int)) st1 with
    | .error st' => .error (destroyDeepSt node (destroyDeepSt inner st'))
    | .ok st2 =>
      match appendSlot inner (node : Int) st2 with
      | .error st' => .error (destroyDeepSt node (destroyDeepSt inner st'))
      | .ok st3 =>
        match buildChildrenE step inner (F - 1) rest st3 with
        | .error st' => .error (destroyDeepSt inner st')
        | .ok (rest', st4) =>
          match appendSlot inner (1 + 2 * ((orig - rest' : Nat) : Int)) st4 with
          | .error st' => .error (destroyDeepSt inner st')
          | .ok st5 => .ok (inner, rest', st5)

/-- Effectful `ColumnBase::build` with `fixed_height = fh ≥ 1`, structured
exactly like the pure `buildF`. -/
def buildFE (F : Nat) : Nat → Nat → St → Except St (Nat × Nat × St)
  | 0, rest, st =>
    match createLeafE (min F rest) st with
    | .error st' => .error st'
    | .ok (leaf, st') => .ok (leaf, rest - min F rest, st')
  | 1, rest, st =>
    match createLeafE (min F rest) st with
    | .error st' => .error st'
    | .ok (leaf, st') => .ok (leaf, rest - min F rest, st')
  | h + 2, rest, st =>
    match buildFE F (h + 1) rest st with
    | .error st' => .error st'
    | .ok (node, r, st') =>
        buildStageE (fun q => buildFE F (h + 1) q) F (h + 1) node r rest st'

/-- Effectful outer loop for `fixed_height = 0`, structured exactly like the
pure `build0Go`. -/
def build0GoE (F : Nat) : Nat → Nat → Nat → Nat → Nat → St →
    Except St (Nat × Nat × St)
  | _, node, _, 0, _, st => .ok (node, 0, st)
  | 0, node, _, rest, _, st => .ok (node, rest, st)
  | fuel + 1, node, h, rest + 1, orig, st =>
    match buildStageE (fun q => buildFE F h q) F h node (rest + 1) orig st with
    | .error st' => .error st'
    | .ok (node', rest', st') => build0GoE F fuel node' (h + 1) rest' orig st'

/-- Effectful `ColumnBase::build(rest_size_ptr, fixed_height, alloc,
handler)` (column.cpp:153-213): returns the root ref, the written-back
remaining count and the final state, or — when a failure is injected — the
state at the moment the exception escapes the call. -/
def buildE (F : Nat) (rest fixedHeight : Nat) (st : St) :
    Except St (Nat × Nat × St) :=
  if fixedHeight = 0 then
    match createLeafE (min F rest) st with
    | .error st' => .error st'
    | .ok (leaf, st') => build0GoE F rest leaf 1 (rest - min F rest) rest st'
  else buildFE F fixedHeight rest st

/-! ### Claim C10 -/

/-- **C10.** When `build` is called with `*rest_size_ptr = 0` (violating the
stated precondition `remaining_count > 0`) and `fixed_height` equal to 0 or
1, it does not fail and builds no inner node: it invokes `create_leaf`
exactly once, with requested size 0 (the call log grows by exactly `[0]` and
the store by exactly one leaf node), and returns that leaf's ref with the
written-back remaining count 0. -/
theorem build_zero_count (F fh : Nat) (st : St) (hb : st.budget = none)
    (hfh : fh = 0 ∨ fh = 1) :
    buildE F 0 fh st = .ok (st.freshRef, 0,
      { st with
        store := (st.freshRef, ⟨.normal, []⟩) :: st.store
        next := st.next + 1
        calls := st.calls ++ [0] }) := by
  rcases hfh with rfl | rfl
  · simp [buildE, createLeafE, allocNode, tick, hb, build0GoE, St.freshRef]
  · simp [buildE, buildFE, createLeafE, allocNode, tick, hb, St.freshRef]

/-- Witness for C10 on a concrete state with `F = 4`. -/
theorem build_zero_count_witness :
    ((⟨[], 0, none, []⟩ : St).budget = none ∧ ((0 : Nat) = 0 ∨ (0 : Nat) = 1)) ∧
    buildE 4 0 0 ⟨[], 0, none, []⟩
      = .ok ((⟨[], 0, none, []⟩ : St).freshRef, 0,
        { (⟨[], 0, none, []⟩ : St) with
          store := ((⟨[], 0, none, []⟩ : St).freshRef, ⟨.normal, []⟩)
            :: (⟨[], 0, none, []⟩ : St).store
          next := 1
          calls := [] ++ [0] }) :=
  ⟨⟨rfl, Or.inl rfl⟩, build_zero_count 4 0 ⟨[], 0, none, []⟩ rfl (Or.inl rfl)⟩

/-! ### Ownership trees and the semantics of `Array::destroy_deep`

To prove the cleanup-on-failure claims we track, for every subtree `build`
persists, the tree of refs it owns (`RTree`), the fact that the store links
them as a tree (`Owns`), and the key lemma `destroyDeep_owned`:
destroying an owned subtree removes exactly its refs from the store. -/

/-- The refs of a persisted subtree, as linked by its ref slots. -/
inductive RTree where
  | mk (root : Nat) (children : List RTree)

/-- The root ref. -/
def RTree.root : RTree → Nat
  | .mk r _ => r

mutual

/-- All refs of the subtree, root first. -/
def RTree.refs : RTree → List Nat
  | .mk r cs => r :: RTree.refsList cs

/-- All refs of a forest, left to right. -/
def RTree.refsList : List RTree → List Nat
  | [] => []
  | t :: ts => RTree.refs t ++ RTree.refsList ts

end

mutual

/-- Depth of an ownership tree. -/
def RTree.depth : RTree → Nat
  | .mk _ cs => RTree.depthList cs + 1

/-- Maximum depth over a forest. -/
def RTree.depthList : List RTree → Nat
  | [] => 0
  | t :: ts => max (RTree.depth t) (RTree.depthList ts)

end

/-- The store links the refs of `t` as a subtree: the root is present and
its ref slots are exactly the roots of its children, recursively. -/
inductive Owns : Store → RTree → Prop where
  | mk {ns : Store} {r : Nat} {cs : List RTree} (a : ArrNode) :
      ns.find r = some a →
      refSlots a = cs.map RTree.root →
      (∀ c ∈ cs, Owns ns c) →
      Owns ns (.mk r cs)

/-- The keys (refs) present in a store, newest first. -/
def keys (ns : Store) : List Nat := ns.map Prod.fst

/-- Remove every entry whose ref is listed. -/
def removeRefs (rs : List Nat) (ns : Store) : Store :=
  ns.filter fun p => decide (p.1 ∉ rs)

namespace Store

theorem find_eq_none_iff (ns : Store) (r : Nat) :
    ns.find r = none ↔ r ∉ keys ns := by
  induction ns with
  | nil => simp [find, keys]
  | cons p ns ih =>
    rcases p with ⟨k, a⟩
    by_cases hk : k = r
    · subst hk
      simp [find, keys]
    · simp [find, hk, keys, ih]
      tauto

theorem find_mem_keys {ns : Store} {r : Nat} {a : ArrNode}
    (h : ns.find r = some a) : r ∈ keys ns := by
  by_contra hc
  rw [← find_eq_none_iff] at hc
  rw [h] at hc
  cases hc

theorem find_append_right (pre ns : Store) (r : Nat) (h : r ∉ keys pre) :
    Store.find (pre ++ ns) r = ns.find r := by
  induction pre with
  | nil => rfl
  | cons p pre ih =>
    rcases p with ⟨k, a⟩
    have hk : k ≠ r := by
      intro hc
      exact h (by simp [keys, hc])
    show Store.find ((k, a) :: (pre ++ ns)) r = ns.find r
    simp only [find, hk, if_neg hk]
    exact ih (by intro hc; exact h (by simp [keys] at hc ⊢; exact Or.inr hc))

theorem find_append_left (pre ns : Store) (r : Nat) (h : r ∈ keys pre) :
    Store.find (pre ++ ns) r = pre.find r := by
  induction pre with
  | nil => cases h
  | cons p pre ih =>
    rcases p with ⟨k, a⟩
    by_cases hk : k = r
    · subst hk
      simp [find]
    · show Store.find ((k, a) :: (pre ++ ns)) r = Store.find ((k, a) :: pre) r
      simp only [find, if_neg hk]
      exact ih (by simp [keys, hk] at h ⊢; tauto)

theorem find_free_ne (ns : Store) (r k : Nat) (h : k ≠ r) :
    (ns.free r).find k = ns.find k := by
  induction ns with
  | nil => rfl
  | cons p ns ih =>
    rcases p with ⟨k', a⟩
    by_cases hk' : k' = r
    · subst hk'
      have h1 : Store.free ((k', a) :: ns) k' = ns := by simp [Store.free]
      rw [h1]
      simp only [find, if_neg (fun hc : k' = k => h hc.symm)]
    · simp only [free, if_neg hk', find]
      by_cases hkk : k' = k
      · simp [hkk]
      · simp [hkk, ih]

theorem find_push_ne (ns : Store) (r k : Nat) (v : Int) (h : k ≠ r) :
    (ns.push r v).find k = ns.find k := by
  induction ns with
  | nil => rfl
  | cons p ns ih =>
    rcases p with ⟨k', a⟩
    by_cases hk' : k' = r
    · subst hk'
      simp only [push, if_pos rfl, find, if_neg (fun hc : k' = k => h hc.symm)]
      exact ih
    · simp only [push, if_neg hk', find]
      by_cases hkk : k' = k
      · simp [hkk]
      · simp only [if_neg hkk]
        exact ih

theorem find_push_self (ns : Store) (r : Nat) (v : Int) :
    (ns.push r v).find r
      = (ns.find r).map (fun a => ⟨a.typ, a.slots ++ [v]⟩) := by
  induction ns with
  | nil => rfl
  | cons p ns ih =>
    rcases p with ⟨k, a⟩
    by_cases hk : k = r
    · subst hk
      simp [push, find]
    · simp only [push, if_neg hk, find, if_neg hk]
      exact ih

theorem keys_push (ns : Store) (r : Nat) (v : Int) :
    keys (ns.push r v) = keys ns := by
  induction ns with
  | nil => rfl
  | cons p ns ih =>
    rcases p with ⟨k, a⟩
    by_cases hk : k = r <;> simp only [push, if_pos, if_neg, hk, keys,
      List.map_cons, ite_true, ite_false] <;>
      simp only [keys] at ih <;> rw [ih]

theorem push_append_of_not_mem (pre ns : Store) (r : Nat) (v : Int)
    (h : r ∉ keys pre) : Store.push (pre ++ ns) r v = pre ++ ns.push r v := by
  induction pre with
  | nil => rfl
  | cons p pre ih =>
    rcases p with ⟨k, a⟩
    have hk : k ≠ r := by
      intro hc
      exact h (by simp [keys, hc])
    show Store.push ((k, a) :: (pre ++ ns)) r v = (k, a) :: (pre ++ ns.push r v)
    simp only [push, if_neg hk, List.cons_append]
    rw [ih (by intro hc; exact h (by simp [keys] at hc ⊢; exact Or.inr hc))]

theorem free_eq_removeRefs (ns : Store) (r : Nat) (h : (keys ns).Nodup) :
    ns.free r = removeRefs [r] ns := by
  induction ns with
  | nil => rfl
  | cons p ns ih =>
    rcases p with ⟨k, a⟩
    simp only [keys, List.map_cons, List.nodup_cons] at h
    by_cases hk : k = r
    · subst hk
      have h1 : Store.free ((k, a) :: ns) k = ns := by simp [Store.free]
      have h2 : removeRefs [k] ((k, a) :: ns) = removeRefs [k] ns := by
        simp [removeRefs, List.filter_cons]
      have h3 : removeRefs [k] ns = ns := by
        apply List.filter_eq_self.2
        intro p hp
        have hne : p.1 ≠ k := by
          intro hceq
          exact h.1 (by rw [← hceq]; exact List.mem_map_of_mem Prod.fst hp)
        simp [hne]
      rw [h1, h2, h3]
    · have h1 : Store.free ((k, a) :: ns) r = (k, a) :: Store.free ns r := by
        simp [Store.free, hk]
      have h2 : removeRefs [r] ((k, a) :: ns) = (k, a) :: removeRefs [r] ns := by
        simp [removeRefs, List.filter_cons, hk]
      rw [h1, h2, ih h.2]

theorem removeRefs_sublist (rs : List Nat) (ns : Store) :
    (removeRefs rs ns).Sublist ns :=
  List.filter_sublist ns

theorem keys_removeRefs_nodup (rs : List Nat) (ns : Store)
    (h : (keys ns).Nodup) : (keys (removeRefs rs ns)).Nodup :=
  ((removeRefs_sublist rs ns).map Prod.fst).nodup h

end Store

theorem removeRefs_nil (ns : Store) : removeRefs [] ns = ns := by
  unfold removeRefs
  apply List.filter_eq_self.2
  intro p _
  simp

theorem removeRefs_removeRefs (rs1 rs2 : List Nat) (ns : Store) :
    removeRefs rs2 (removeRefs rs1 ns) = removeRefs (rs1 ++ rs2) ns := by
  unfold removeRefs
  rw [List.filter_filter]
  apply List.filter_congr
  intro p _
  by_cases h1 : p.1 ∈ rs1 <;> by_cases h2 : p.1 ∈ rs2 <;>
    simp [h1, h2]

theorem removeRefs_append_store (rs : List Nat) (pre ns : Store) :
    removeRefs rs (pre ++ ns) = removeRefs rs pre ++ removeRefs rs ns := by
  unfold removeRefs
  exact List.filter_append _ _

theorem removeRefs_eq_nil (rs : List Nat) (pre : Store)
    (h : ∀ k ∈ keys pre, k ∈ rs) : removeRefs rs pre = [] := by
  unfold removeRefs
  apply List.filter_eq_nil_iff.2
  intro p hp
  have := h p.1 (List.mem_map_of_mem Prod.fst hp)
  simp [this]

theorem removeRefs_eq_self (rs : List Nat) (ns : Store)
    (h : ∀ k ∈ keys ns, k ∉ rs) : removeRefs rs ns = ns := by
  unfold removeRefs
  apply List.filter_eq_self.2
  intro p hp
  have := h p.1 (List.mem_map_of_mem Prod.fst hp)
  simp [this]

theorem find_removeRefs_not_mem (rs : List Nat) (ns : Store) (k : Nat)
    (h : k ∉ rs) : (removeRefs rs ns).find k = ns.find k := by
  induction ns with
  | nil => rfl
  | cons p ns ih =>
    rcases p with ⟨k', a⟩
    by_cases hk' : k' ∈ rs
    · have h1 : removeRefs rs ((k', a) :: ns) = removeRefs rs ns := by
        simp [removeRefs, List.filter_cons, hk']
      rw [h1, ih]
      have : ¬ k' = k := by
        intro hc
        exact h (hc ▸ hk')
      simp [Store.find, this]
    · have h1 : removeRefs rs ((k', a) :: ns) = (k', a) :: removeRefs rs ns := by
        simp [removeRefs, List.filter_cons, hk']
      rw [h1]
      by_cases hkk : k' = k
      · simp [Store.find, hkk]
      · simp [Store.find, hkk, ih]

/-! ### RTree facts and `Owns` stability -/

namespace RTree

theorem depth_pos (t : RTree) : 1 ≤ t.depth := by
  cases t
  simp [depth]

theorem depthList_cons (c : RTree) (cs : List RTree) :
    depthList (c :: cs) = max c.depth (depthList cs) := by
  simp [depthList]

theorem depth_le_depthList {c : RTree} {cs : List RTree} (h : c ∈ cs) :
    c.depth ≤ depthList cs := by
  induction cs with
  | nil => cases h
  | cons c' cs ih =>
    rw [depthList_cons]
    rcases List.mem_cons.1 h with rfl | h
    · exact le_max_left _ _
    · exact le_trans (ih h) (le_max_right _ _)

theorem mem_refsList {k : Nat} {cs : List RTree} :
    k ∈ refsList cs ↔ ∃ c ∈ cs, k ∈ refs c := by
  induction cs with
  | nil => simp [refsList]
  | cons c cs ih =>
    simp [refsList, List.mem_append, ih]

theorem root_mem_refs (t : RTree) : t.root ∈ t.refs := by
  cases t
  simp [root, refs]

end RTree

/-- `Owns` depends only on the store's `find` at the subtree's refs. -/
theorem Owns_mono {ns : Store} {t : RTree} (h : Owns ns t) :
    ∀ ns', (∀ k ∈ t.refs, ns'.find k = ns.find k) → Owns ns' t := by
  induction h with
  | mk a hfind hslots hcs ih =>
    intro ns' hsame
    refine Owns.mk a ?_ hslots ?_
    · rw [hsame _ (by simp [RTree.refs])]
      exact hfind
    · intro c hc
      refine ih c hc ns' ?_
      intro k hk
      apply hsame
      show k ∈ _ :: RTree.refsList _
      exact List.mem_cons_of_mem _ (RTree.mem_refsList.2 ⟨c, hc, hk⟩)

/-- Destroying an owned subtree removes exactly its refs from the store:
the semantics of `Array::destroy_deep` on a well-formed store. -/
theorem destroyDeep_owned :
    ∀ fuel (t : RTree) (ns : Store),
      Owns ns t → t.refs.Nodup → (keys ns).Nodup →
      t.depth ≤ fuel →
      destroyDeepF fuel t.root ns = removeRefs t.refs ns := by
  intro fuel
  induction fuel with
  | zero =>
    intro t ns _ _ _ hd
    have := t.depth_pos
    omega
  | succ fuel ih =>
    -- forest version at the smaller fuel
    have forest : ∀ (cs : List RTree) (ns : Store),
        (∀ c ∈ cs, Owns ns c) → (RTree.refsList cs).Nodup →
        (keys ns).Nodup → RTree.depthList cs ≤ fuel →
        (cs.map RTree.root).foldl (fun acc c => destroyDeepF fuel c acc) ns
          = removeRefs (RTree.refsList cs) ns := by
      intro cs
      induction cs with
      | nil =>
        intro ns _ _ _ _
        simp [RTree.refsList, removeRefs_nil]
      | cons c cs ihcs =>
        intro ns howns hnd hkeys hd
        have hndc : c.refs.Nodup := (List.nodup_append.1 (by
          simpa [RTree.refsList] using hnd)).1
        have hndcs : (RTree.refsList cs).Nodup := (List.nodup_append.1 (by
          simpa [RTree.refsList] using hnd)).2.1
        have hdisj : ∀ k ∈ c.refs, k ∉ RTree.refsList cs := by
          have hdj := (List.nodup_append.1 (by
            simpa [RTree.refsList] using hnd)).2.2
          intro k hk hk2
          exact hdj hk hk2
        have hstep : destroyDeepF fuel c.root ns = removeRefs c.refs ns :=
          ih c ns (howns c (List.mem_cons_self c cs)) hndc hkeys
            (le_trans (RTree.depth_le_depthList (List.mem_cons_self c cs)) hd)
        have hrec :
            (cs.map RTree.root).foldl (fun acc x => destroyDeepF fuel x acc)
              (removeRefs c.refs ns)
            = removeRefs (RTree.refsList cs) (removeRefs c.refs ns) := by
          apply ihcs
          · intro c' hc'
            refine Owns_mono (howns c' (List.mem_cons_of_mem _ hc')) _ ?_
            intro k hk
            apply find_removeRefs_not_mem
            intro hkc
            exact hdisj k hkc (RTree.mem_refsList.2 ⟨c', hc', hk⟩)
          · exact hndcs
          · exact Store.keys_removeRefs_nodup _ _ hkeys
          · rw [RTree.depthList_cons] at hd
            exact le_trans (le_max_right _ _) hd
        calc ((c :: cs).map RTree.root).foldl
              (fun acc x => destroyDeepF fuel x acc) ns
            = (cs.map RTree.root).foldl (fun acc x => destroyDeepF fuel x acc)
                (destroyDeepF fuel c.root ns) := by
              simp [List.foldl_cons]
          _ = removeRefs (RTree.refsList cs) (removeRefs c.refs ns) := by
              rw [hstep, hrec]
          _ = removeRefs (c.refs ++ RTree.refsList cs) ns :=
              removeRefs_removeRefs _ _ _
          _ = removeRefs (RTree.refsList (c :: cs)) ns := by
              simp [RTree.refsList]
    intro t ns howns hnd hkeys hd
    rcases t with ⟨r, cs⟩
    rcases howns with ⟨a, hfind, hslots, hcs⟩
    have hrefs : RTree.refs (.mk r cs) = r :: RTree.refsList cs := by
      simp [RTree.refs]
    have hdepth : RTree.depth (.mk r cs) = RTree.depthList cs + 1 := by
      simp [RTree.depth]
    rw [hrefs] at hnd
    rw [hdepth] at hd
    have hndcs : (RTree.refsList cs).Nodup := (List.nodup_cons.1 hnd).2
    have hrnotin : r ∉ RTree.refsList cs := (List.nodup_cons.1 hnd).1
    have hroot : RTree.root (.mk r cs) = r := rfl
    rw [hroot, hrefs]
    have hunfold : destroyDeepF (fuel + 1) r ns
        = (cs.map RTree.root).foldl (fun acc c => destroyDeepF fuel c acc)
            (ns.free r) := by
      simp [destroyDeepF, hfind, hslots]
    rw [hunfold]
    have hfree : ns.free r = removeRefs [r] ns :=
      Store.free_eq_removeRefs ns r hkeys
    have hres := forest cs (ns.free r)
      (by
        intro c hc
        refine Owns_mono (hcs c hc) _ ?_
        intro k hk
        apply Store.find_free_ne
        intro hkr
        exact hrnotin (hkr ▸ RTree.mem_refsList.2 ⟨c, hc, hk⟩))
      hndcs
      (by
        rw [hfree]
        exact Store.keys_removeRefs_nodup _ _ hkeys)
      (by omega)
    rw [hres, hfree, removeRefs_removeRefs]
    rfl

/-! ### Well-formed states and build postconditions -/

namespace Store

/-- Repeated `Array::add`: append a list of slots to one node. -/
def pushN (ns : Store) (r : Nat) (vs : List Int) : Store :=
  vs.foldl (fun acc v => acc.push r v) ns

theorem pushN_nil (ns : Store) (r : Nat) : ns.pushN r [] = ns := rfl

theorem pushN_cons (ns : Store) (r : Nat) (v : Int) (vs : List Int) :
    ns.pushN r (v :: vs) = (ns.push r v).pushN r vs := rfl

theorem push_of_not_mem (ns : Store) (r : Nat) (v : Int)
    (h : r ∉ keys ns) : ns.push r v = ns := by
  induction ns with
  | nil => rfl
  | cons p ns ih =>
    rcases p with ⟨k, a⟩
    have hk : k ≠ r := by
      intro hc
      exact h (by simp [keys, hc])
    simp only [push, if_neg hk]
    rw [ih (by intro hc; exact h (by simp [keys] at hc ⊢; exact Or.inr hc))]

theorem find_pushN_ne (ns : Store) (r k : Nat) (vs : List Int) (h : k ≠ r) :
    (ns.pushN r vs).find k = ns.find k := by
  induction vs generalizing ns with
  | nil => rfl
  | cons v vs ih =>
    rw [pushN_cons, ih, find_push_ne _ _ _ _ h]

theorem keys_pushN (ns : Store) (r : Nat) (vs : List Int) :
    keys (ns.pushN r vs) = keys ns := by
  induction vs generalizing ns with
  | nil => rfl
  | cons v vs ih =>
    rw [pushN_cons, ih, keys_push]

theorem pushN_append_of_not_mem (pre ns : Store) (r : Nat) (vs : List Int)
    (h : r ∉ keys pre) : Store.pushN (pre ++ ns) r vs = pre ++ ns.pushN r vs := by
  induction vs generalizing ns with
  | nil => rfl
  | cons v vs ih =>
    rw [pushN_cons, push_append_of_not_mem _ _ _ _ h, ih, pushN_cons]

theorem pushN_cons_head (r : Nat) (a : ArrNode) (ns : Store) (vs : List Int)
    (h : r ∉ keys ns) :
    Store.pushN ((r, a) :: ns) r vs = (r, ⟨a.typ, a.slots ++ vs⟩) :: ns := by
  induction vs generalizing a with
  | nil =>
    rcases a with ⟨t, s⟩
    simp [pushN_nil]
  | cons v vs ih =>
    rw [pushN_cons]
    have h1 : Store.push ((r, a) :: ns) r v
        = (r, ⟨a.typ, a.slots ++ [v]⟩) :: ns := by
      simp [push, push_of_not_mem _ _ _ h]
    rw [h1, ih]
    simp

theorem mem_keys_find {ns : Store} {k : Nat} (h : k ∈ keys ns) :
    ∃ a, ns.find k = some a := by
  induction ns with
  | nil => cases h
  | cons p ns ih =>
    rcases p with ⟨k', a⟩
    by_cases hk : k' = k
    · exact ⟨a, by simp [find, hk]⟩
    · have : k ∈ keys ns := by
        simp [keys, hk] at h ⊢
        tauto
      obtain ⟨b, hb⟩ := ih this
      exact ⟨b, by simp [find, hk, hb]⟩

end Store

theorem keys_append (pre ns : Store) :
    keys (pre ++ ns) = keys pre ++ keys ns := by
  simp [keys]

mutual

/-- Depth of an ownership tree is at most the number of its refs. -/
theorem RTree.depth_le_len : ∀ t : RTree, t.depth ≤ t.refs.length
  | .mk r cs => by
    have := RTree.depthList_le_len cs
    simp only [RTree.depth, RTree.refs, List.length_cons]
    omega

theorem RTree.depthList_le_len :
    ∀ cs : List RTree, RTree.depthList cs ≤ (RTree.refsList cs).length
  | [] => by simp [RTree.depthList, RTree.refsList]
  | c :: cs => by
    have h1 := RTree.depth_le_len c
    have h2 := RTree.depthList_le_len cs
    simp only [RTree.depthList, RTree.refsList, List.length_append]
    omega

end

/-- A well-formed engine state: refs are unique, even, non-zero and below
the allocator's fresh-ref watermark. -/
def StOk (st : St) : Prop :=
  (keys st.store).Nodup ∧
  ∀ k ∈ keys st.store, k % 2 = 0 ∧ k ≠ 0 ∧ k < 2 * st.next + 2

theorem StOk_of_store_eq {st st' : St} (h : StOk st)
    (hstore : st'.store = st.store) (hnext : st.next ≤ st'.next) :
    StOk st' := by
  refine ⟨by rw [hstore]; exact h.1, ?_⟩
  intro k hk
  rw [hstore] at hk
  have := h.2 k hk
  omega

/-- Postcondition of a successful `build`-style call: the final state is the
initial one extended (on top) by exactly the entries of a subtree owned by
the returned root, all of whose refs are fresh relative to the initial
state. -/
def BuildOut (st : St) (r : Nat) (st' : St) : Prop :=
  StOk st' ∧ st.next ≤ st'.next ∧
  ∃ t pre, RTree.root t = r ∧ st'.store = pre ++ st.store ∧
    Owns st'.store t ∧ t.refs.Perm (keys pre) ∧
    ∀ k ∈ t.refs, 2 * st.next + 2 ≤ k

/-- The contract of the recursive `build(&rest_size, height, ...)` call as
used by the loops: on failure the Node Store is exactly as before the call
(and the fresh-ref counter has not gone backwards); on success the call
extends the store by one owned subtree. -/
def StepSpec (step : Nat → St → Except St (Nat × Nat × St)) : Prop :=
  ∀ rest st, StOk st →
    (∀ st', step rest st = .error st' →
      st'.store = st.store ∧ st.next ≤ st'.next) ∧
    (∀ r rest' st', step rest st = .ok (r, rest', st') → BuildOut st r st')

theorem BuildOut_refs_facts {st : St} {r : Nat} {st' : St}
    (h : BuildOut st r st') :
    ∃ t pre, RTree.root t = r ∧ st'.store = pre ++ st.store ∧
      Owns st'.store t ∧ t.refs.Perm (keys pre) ∧
      (∀ k ∈ t.refs, 2 * st.next + 2 ≤ k) ∧
      t.refs.Nodup ∧
      (∀ k ∈ t.refs, k % 2 = 0 ∧ k ≠ 0 ∧ k < 2 * st'.next + 2) := by
  obtain ⟨hok, hnext, t, pre, hr, hstore, howns, hperm, hfresh⟩ := h
  refine ⟨t, pre, hr, hstore, howns, hperm, hfresh, ?_, ?_⟩
  · have hkeys : (keys st'.store).Nodup := hok.1
    rw [hstore, keys_append] at hkeys
    exact hperm.nodup_iff.2 (List.Nodup.of_append_left hkeys)
  · intro k hk
    have hmem : k ∈ keys st'.store := by
      rw [hstore, keys_append]
      exact List.mem_append_left _ (hperm.mem_iff.1 hk)
    exact hok.2 k hmem

/-- Destroying the subtree a successful sub-build produced restores the
store to its state before the sub-build, from any state with the same
store contents. -/
theorem destroy_buildout {stB : St} {r : Nat} {st' : St}
    (h : BuildOut stB r st') (hB : StOk stB) (stE : St)
    (hstore : stE.store = st'.store) :
    (destroyDeepSt r stE).store = stB.store := by
  obtain ⟨t, pre, hr, hst, howns, hperm, hfresh, hnd, _⟩ :=
    BuildOut_refs_facts h
  have hok' : StOk st' := h.1
  have hdestroy : destroyDeepF stE.store.length r stE.store
      = removeRefs t.refs stE.store := by
    rw [← hr]
    apply destroyDeep_owned
    · exact Owns_mono howns _ (by intro k _; rw [hstore])
    · exact hnd
    · rw [hstore]; exact hok'.1
    · calc t.depth ≤ t.refs.length := t.depth_le_len
        _ = (keys pre).length := hperm.length_eq
        _ ≤ stE.store.length := by
            rw [hstore, hst]
            simp [keys]
  show destroyDeepF stE.store.length r stE.store = stB.store
  rw [hdestroy, hstore, hst, removeRefs_append_store]
  have h1 : removeRefs t.refs pre = [] := by
    apply removeRefs_eq_nil
    intro k hk
    exact hperm.mem_iff.2 hk
  have h2 : removeRefs t.refs stB.store = stB.store := by
    apply removeRefs_eq_self
    intro k hk hkr
    have := hB.2 k hk
    have := hfresh k hkr
    omega
  rw [h1, h2, List.nil_append]

/-! ### Behavior of the primitive operations -/

theorem tick_error {st st' : St} (h : tick st = .error st') : st' = st := by
  unfold tick at h
  rcases hb : st.budget with _ | k
  · rw [hb] at h; cases h
  · rcases k with _ | k
    · rw [hb] at h
      exact (Except.error.inj h).symm
    · rw [hb] at h; cases h

theorem tick_ok {st st' : St} (h : tick st = .ok st') :
    st'.store = st.store ∧ st'.next = st.next ∧ st'.calls = st.calls := by
  unfold tick at h
  rcases hb : st.budget with _ | k
  · rw [hb] at h
    rw [← Except.ok.inj h]
    exact ⟨rfl, rfl, rfl⟩
  · rcases k with _ | k
    · rw [hb] at h; cases h
    · rw [hb] at h
      rw [← Except.ok.inj h]
      exact ⟨rfl, rfl, rfl⟩

theorem appendSlot_error {r : Nat} {v : Int} {st st' : St}
    (h : appendSlot r v st = .error st') : st' = st := by
  unfold appendSlot at h
  rcases ht : tick st with st'' | st''
  · rw [ht] at h
    exact (tick_error ht) ▸ (Except.error.inj h).symm
  · rw [ht] at h; cases h

theorem appendSlot_ok {r : Nat} {v : Int} {st st' : St}
    (h : appendSlot r v st = .ok st') :
    st'.store = st.store.push r v ∧ st'.next = st.next ∧
      st'.calls = st.calls := by
  unfold appendSlot at h
  rcases ht : tick st with st'' | st''
  · rw [ht] at h; cases h
  · rw [ht] at h
    obtain ⟨h1, h2, h3⟩ := tick_ok ht
    rw [← Except.ok.inj h]
    exact ⟨by simp [h1], by simp [h2], by simp [h3]⟩

theorem allocNode_error {t : ArrType} {st st' : St}
    (h : allocNode t st = .error st') : st' = st := by
  unfold allocNode at h
  rcases ht : tick st with st'' | st''
  · rw [ht] at h
    exact (tick_error ht) ▸ (Except.error.inj h).symm
  · rw [ht] at h; cases h

theorem allocNode_ok {t : ArrType} {st : St} {r : Nat} {st' : St}
    (h : allocNode t st = .ok (r, st')) :
    r = 2 * st.next + 2 ∧ st'.store = (r, ⟨t, []⟩) :: st.store ∧
      st'.next = st.next + 1 ∧ st'.calls = st.calls := by
  unfold allocNode at h
  rcases ht : tick st with st'' | st''
  · rw [ht] at h; cases h
  · rw [ht] at h
    obtain ⟨h1, h2, h3⟩ := tick_ok ht
    have hp := Except.ok.inj h
    have hr : r = st''.freshRef := congrArg Prod.fst hp.symm
    have hst : st' = { st'' with
        store := (st''.freshRef, ⟨t, []⟩) :: st''.store
        next := st''.next + 1 } := congrArg Prod.snd hp.symm
    rw [hst, hr]
    unfold St.freshRef
    rw [h1, h2]
    exact ⟨rfl, rfl, rfl, by simp [h3]⟩

theorem createLeafE_error {n : Nat} {st st' : St}
    (h : createLeafE n st = .error st') :
    st'.store = st.store ∧ st'.next = st.next := by
  unfold createLeafE at h
  have := allocNode_error h
  rw [this]
  exact ⟨rfl, rfl⟩

theorem createLeafE_ok {n : Nat} {st : St} {r : Nat} {st' : St}
    (h : createLeafE n st = .ok (r, st')) :
    r = 2 * st.next + 2 ∧ st'.store = (r, ⟨.normal, []⟩) :: st.store ∧
      st'.next = st.next + 1 ∧ st'.calls = st.calls ++ [n] := by
  unfold createLeafE at h
  obtain ⟨h1, h2, h3, h4⟩ := allocNode_ok h
  exact ⟨h1, h2, h3, h4⟩

/-- A freshly allocated node keeps the state well-formed. -/
theorem StOk_alloc {st : St} (h : StOk st) (t : ArrType) :
    StOk { st with
      store := (2 * st.next + 2, ⟨t, []⟩) :: st.store
      next := st.next + 1 } := by
  constructor
  · show ((2 * st.next + 2) :: keys st.store).Nodup
    refine List.nodup_cons.2 ⟨?_, h.1⟩
    intro hmem
    have := h.2 _ hmem
    omega
  · intro k hk
    show k % 2 = 0 ∧ k ≠ 0 ∧ k < 2 * (st.next + 1) + 2
    rcases List.mem_cons.1 hk with rfl | hk
    · omega
    · have := h.2 k hk
      omega

/-- A successful `create_leaf` extends the store by one owned leaf node. -/
theorem createLeafE_buildout {n : Nat} {st : St} {r : Nat} {st' : St}
    (hok : StOk st) (h : createLeafE n st = .ok (r, st')) :
    BuildOut st r st' := by
  obtain ⟨hr, hstore, hnext, _⟩ := createLeafE_ok h
  have hok' : StOk st' := by
    have halloc := StOk_alloc hok .normal
    refine ⟨?_, ?_⟩
    · rw [hstore, hr]
      exact halloc.1
    · intro k hk
      rw [hstore, hr] at hk
      have h2 := halloc.2 k hk
      have h3 : k % 2 = 0 ∧ k ≠ 0 ∧ k < 2 * (st.next + 1) + 2 := h2
      show k % 2 = 0 ∧ k ≠ 0 ∧ k < 2 * st'.next + 2
      omega
  refine ⟨hok', by omega, .mk r [], [(r, ⟨.normal, []⟩)], rfl,
    by rw [hstore]; rfl, ?_, ?_, ?_⟩
  · refine Owns.mk ⟨.normal, []⟩ ?_ ?_ ?_
    · rw [hstore]
      simp [Store.find]
    · simp [refSlots]
    · intro c hc
      cases hc
  · show (RTree.refs (.mk r [])).Perm (keys [(r, ⟨ArrType.normal, []⟩)])
    simp [RTree.refs, RTree.refsList, keys]
  · intro k hk
    simp [RTree.refs, RTree.refsList] at hk
    omega

theorem StOk_of_keys_eq {st st' : St} (h : StOk st)
    (hkeys : keys st'.store = keys st.store) (hnext : st.next ≤ st'.next) :
    StOk st' := by
  refine ⟨by rw [hkeys]; exact h.1, ?_⟩
  intro k hk
  rw [hkeys] at hk
  have := h.2 k hk
  omega

/-- State of the inner node's children after some iterations of the `while`
loop: the store has gained the owned subtrees of the forest `ts`, whose
roots have been appended, in order, as ref slots of the inner node. -/
def ForestOut (stc : St) (inner : Nat) (ts : List RTree) (st' : St) : Prop :=
  StOk st' ∧ stc.next ≤ st'.next ∧
  ∃ pre, st'.store = pre ++ stc.store.pushN inner (ts.map fun t => ((t.root : Nat) : Int)) ∧
    (RTree.refsList ts).Perm (keys pre) ∧
    (∀ c ∈ ts, Owns st'.store c) ∧
    ∀ k ∈ RTree.refsList ts, 2 * stc.next + 2 ≤ k

/-- The empty-forest postcondition: nothing attached, store unchanged. -/
theorem ForestOut_nil {stc st' : St} (inner : Nat) (hok : StOk st')
    (hstore : st'.store = stc.store) (hnext : stc.next ≤ st'.next) :
    ForestOut stc inner [] st' := by
  refine ⟨hok, hnext, [], ?_, ?_, ?_, ?_⟩
  · simpa [Store.pushN_nil] using hstore
  · simp [RTree.refsList, keys]
  · intro c hc
    cases hc
  · intro k hk
    simp [RTree.refsList] at hk

/-- Extending a forest postcondition by one earlier-attached child. -/
theorem ForestOut_cons {stc st1 st3 stX : St} {inner child : Nat}
    {tC : RTree} {ts : List RTree} {preC : Store}
    (hinner : inner < 2 * stc.next + 2)
    (htCroot : tC.root = child)
    (hst1store : st1.store = preC ++ stc.store)
    (hownsC : Owns st1.store tC)
    (hpermC : tC.refs.Perm (keys preC))
    (hfreshC : ∀ k ∈ tC.refs, 2 * stc.next + 2 ≤ k)
    (hboundC : ∀ k ∈ tC.refs, k < 2 * st1.next + 2)
    (hnext1 : stc.next ≤ st1.next)
    (hst3store : st3.store = st1.store.push inner ((child : Nat) : Int))
    (hst3next : st3.next = st1.next)
    (hF : ForestOut st3 inner ts stX) :
    ForestOut stc inner (tC :: ts) stX := by
  obtain ⟨hokX, hnextX, pre', hstoreX, hperm', howns', hfresh'⟩ := hF
  have hinnernotpre : inner ∉ keys preC := by
    intro hmem
    have := hfreshC inner (hpermC.mem_iff.2 hmem)
    omega
  refine ⟨hokX, by omega, pre' ++ preC, ?_, ?_, ?_, ?_⟩
  · rw [hstoreX, hst3store, hst1store,
      Store.push_append_of_not_mem _ _ _ _ hinnernotpre,
      Store.pushN_append_of_not_mem _ _ _ _ hinnernotpre]
    have : ((tC :: ts).map fun t => ((t.root : Nat) : Int))
        = ((child : Nat) : Int) :: (ts.map fun t => ((t.root : Nat) : Int)) := by
      simp [htCroot]
    rw [this, Store.pushN_cons, List.append_assoc]
  · show (tC.refs ++ RTree.refsList ts).Perm (keys (pre' ++ preC))
    rw [keys_append]
    exact List.Perm.trans List.perm_append_comm
      (List.Perm.append hperm' hpermC)
  · intro c hc
    rcases List.mem_cons.1 hc with rfl | hc
    · refine Owns_mono hownsC _ ?_
      intro k hk
      have hk1 : 2 * stc.next + 2 ≤ k := hfreshC k hk
      have hk2 : k < 2 * st1.next + 2 := hboundC k hk
      rw [hstoreX]
      rw [Store.find_append_right]
      · rw [Store.find_pushN_ne _ _ _ _ (by omega), hst3store,
          Store.find_push_ne _ _ _ _ (by omega)]
      · intro hmem
        have := hfresh' k (hperm'.mem_iff.2 hmem)
        omega
    · exact howns' c hc
  · intro k hk
    rcases List.mem_append.1 hk with hk | hk
    · exact hfreshC k hk
    · have := hfresh' k hk
      omega

/-- Specification of the `while` loop of `build`: whether it completes or an
exception escapes it, the store holds the loop-entry contents plus an owned
forest of already-attached children (the loop itself destroys only a child
whose attachment failed; the enclosing `catch` blocks are accounted for by
`buildStageE`). -/
theorem buildChildrenE_spec (step : Nat → St → Except St (Nat × Nat × St))
    (hstep : StepSpec step) (inner : Nat) :
    ∀ slots rest stc, StOk stc → inner < 2 * stc.next + 2 →
      (∀ stE, buildChildrenE step inner slots rest stc = .error stE →
        ∃ ts, ForestOut stc inner ts stE) ∧
      (∀ rest' st', buildChildrenE step inner slots rest stc = .ok (rest', st') →
        ∃ ts, ForestOut stc inner ts st') := by
  intro slots
  induction slots with
  | zero =>
    intro rest stc hok _
    constructor
    · intro stE hE
      cases hE
    · intro rest' st' hE
      have : rest' = rest ∧ st' = stc := by
        have := Except.ok.inj hE
        exact ⟨(congrArg Prod.fst this).symm, (congrArg Prod.snd this).symm⟩
      obtain ⟨rfl, rfl⟩ := this
      exact ⟨[], ForestOut_nil _ hok rfl (le_refl _)⟩
  | succ slots ih =>
    intro rest stc hok hinner
    by_cases hrest : rest = 0
    · subst hrest
      constructor
      · intro stE hE
        simp only [buildChildrenE, if_pos rfl] at hE
        cases hE
      · intro rest' st' hE
        simp only [buildChildrenE, if_pos rfl] at hE
        have : rest' = 0 ∧ st' = stc := by
          have := Except.ok.inj hE
          exact ⟨(congrArg Prod.fst this).symm, (congrArg Prod.snd this).symm⟩
        obtain ⟨rfl, rfl⟩ := this
        exact ⟨[], ForestOut_nil _ hok rfl (le_refl _)⟩
    · -- one child is built and attached
      rcases hs : step rest stc with stE1 | ⟨child, rest1, st1⟩
      · -- the recursive build failed: it cleaned up after itself
        have hprop := (hstep rest stc hok).1 stE1 hs
        constructor
        · intro stE hE
          simp only [buildChildrenE, if_neg hrest, hs] at hE
          have hEeq : stE = stE1 := (Except.error.inj hE).symm
          subst hEeq
          exact ⟨[], ForestOut_nil _ (StOk_of_store_eq hok hprop.1 hprop.2)
            hprop.1 hprop.2⟩
        · intro rest' st' hE
          simp only [buildChildrenE, if_neg hrest, hs] at hE
          cases hE
      · -- child built: `new_inner_node.add(from_ref(child))`
        have hchild : BuildOut stc child st1 := (hstep rest stc hok).2 _ _ _ hs
        obtain ⟨tC, preC, htCroot, hst1store, hownsC, hpermC, hfreshC, hndC,
          hboundsC⟩ := BuildOut_refs_facts hchild
        have hok1 : StOk st1 := hchild.1
        have hnext1 : stc.next ≤ st1.next := hchild.2.1
        rcases ha : appendSlot inner ((child : Nat) : Int) st1 with stE2 | st3
        · -- the attach failed: destroy the child, then the error escapes
          have haeq : stE2 = st1 := appendSlot_error ha
          have hdest : (destroyDeepSt child stE2).store = stc.store :=
            destroy_buildout hchild hok stE2 (by rw [haeq])
          constructor
          · intro stE hE
            simp only [buildChildrenE, if_neg hrest, hs, ha] at hE
            have hEeq : stE = destroyDeepSt child stE2 :=
              (Except.error.inj hE).symm
            subst hEeq
            refine ⟨[], ForestOut_nil _ ?_ hdest ?_⟩
            · refine StOk_of_store_eq hok hdest ?_
              show stc.next ≤ stE2.next
              rw [haeq]
              exact hnext1
            · show stc.next ≤ stE2.next
              rw [haeq]
              exact hnext1
          · intro rest' st' hE
            simp only [buildChildrenE, if_neg hrest, hs, ha] at hE
            cases hE
        · -- attached: continue the loop
          obtain ⟨hst3store, hst3next, _⟩ := appendSlot_ok ha
          have hok3 : StOk st3 := by
            refine StOk_of_keys_eq hok1 ?_ (by omega)
            rw [hst3store, Store.keys_push]
          have ihres := ih rest1 st3 hok3 (by omega)
          constructor
          · intro stE hE
            simp only [buildChildrenE, if_neg hrest, hs, ha] at hE
            obtain ⟨ts, hF⟩ := ihres.1 stE hE
            exact ⟨tC :: ts, ForestOut_cons hinner htCroot hst1store hownsC
              hpermC hfreshC (fun k hk => (hboundsC k hk).2.2) hnext1
              hst3store hst3next hF⟩
          · intro rest' st' hE
            simp only [buildChildrenE, if_neg hrest, hs, ha] at hE
            obtain ⟨ts, hF⟩ := ihres.2 rest' st' hE
            exact ⟨tC :: ts, ForestOut_cons hinner htCroot hst1store hownsC
              hpermC hfreshC (fun k hk => (hboundsC k hk).2.2) hnext1
              hst3store hst3next hF⟩

/-! ### Slot parity and the shape of an inner node under construction -/

theorem inline_slot_odd (x : Int) : (1 + 2 * x) % 2 = 1 := by
  rw [Int.add_mul_emod_self_left]
  rfl

theorem refSlot_test_inline (v : Int) (hv : v % 2 = 1) :
    (v % 2 == 0 && v != 0) = false := by
  rw [hv]
  rfl

theorem refSlot_test_ref (r : Nat) (hr : r % 2 = 0) (hnz : r ≠ 0) :
    (((r : Nat) : Int) % 2 == 0 && ((r : Nat) : Int) != 0) = true := by
  have h1 : ((r : Nat) : Int) % 2 = 0 := by omega
  have h2 : ((r : Nat) : Int) ≠ 0 := by omega
  rw [Bool.and_eq_true, beq_iff_eq, bne_iff_ne]
  exact ⟨h1, h2⟩

theorem refSlots_innerBptree (slots : List Int) :
    refSlots ⟨.innerBptree, slots⟩
      = (slots.filter fun s => s % 2 == 0 && s != 0).map Int.toNat := rfl

/-- The ref slots of an inner node holding an inline first slot, the spine
ref, the attached child refs and (possibly) an inline closing slot are
exactly the spine and the children, in order. -/
theorem refSlots_build (v1 : Int) (hv1 : v1 % 2 = 1) (node : Nat)
    (hnodeE : node % 2 = 0) (hnodeNZ : node ≠ 0) (roots : List Nat)
    (hroots : ∀ r ∈ roots, r % 2 = 0 ∧ r ≠ 0) (tailSlots : List Int)
    (htail : ∀ v ∈ tailSlots, v % 2 = 1) :
    refSlots ⟨.innerBptree,
        v1 :: (node : Int) :: ((roots.map fun r => ((r : Nat) : Int)) ++ tailSlots)⟩
      = node :: roots := by
  rw [refSlots_innerBptree]
  rw [List.filter_cons_of_neg (by rw [refSlot_test_inline v1 hv1]; simp)]
  rw [@List.filter_cons_of_pos Int (fun s => s % 2 == 0 && s != 0)
    ((node : Nat) : Int) ((roots.map fun r => ((r : Nat) : Int)) ++ tailSlots)
    (refSlot_test_ref node hnodeE hnodeNZ)]
  have hfilter : List.filter (fun s => s % 2 == 0 && s != 0)
      ((roots.map fun r => ((r : Nat) : Int)) ++ tailSlots)
      = roots.map fun r => ((r : Nat) : Int) := by
    rw [List.filter_append]
    have h1 : List.filter (fun s => s % 2 == 0 && s != 0)
        (roots.map fun r => ((r : Nat) : Int))
        = roots.map fun r => ((r : Nat) : Int) := by
      apply List.filter_eq_self.2
      intro v hv
      obtain ⟨r, hr, rfl⟩ := List.mem_map.1 hv
      exact refSlot_test_ref r (hroots r hr).1 (hroots r hr).2
    have h2 : List.filter (fun s => s % 2 == 0 && s != 0) tailSlots = [] := by
      apply List.filter_eq_nil_iff.2
      intro v hv
      rw [refSlot_test_inline v (htail v hv)]
      simp
    rw [h1, h2, List.append_nil]
  rw [hfilter]
  simp only [List.map_cons, List.map_map]
  rw [Int.toNat_natCast]
  have hmap : List.map (Int.toNat ∘ fun r : Nat => ((r : Nat) : Int)) roots
      = roots := by
    have hfun : (Int.toNat ∘ fun r : Nat => ((r : Nat) : Int))
        = fun r : Nat => r := by
      funext r
      exact Int.toNat_natCast r
    rw [hfun]
    exact List.map_id roots
  rw [hmap]

/-- Destroying a freshly created inner node that owns no children yet frees
exactly that node. -/
theorem destroy_unattached_inner {st stE : St} {inner : Nat} {vs : List Int}
    (hok : StOk st) (hfresh : inner ∉ keys st.store)
    (hstore : stE.store = (inner, ⟨.innerBptree, vs⟩) :: st.store)
    (hodd : refSlots ⟨.innerBptree, vs⟩ = []) :
    (destroyDeepSt inner stE).store = st.store := by
  have howns : Owns stE.store (.mk inner []) := by
    refine Owns.mk ⟨.innerBptree, vs⟩ ?_ (by rw [hodd]; rfl) ?_
    · rw [hstore]
      simp [Store.find]
    · intro c hc
      cases hc
  have hkeys : (keys stE.store).Nodup := by
    rw [hstore]
    exact List.nodup_cons.2 ⟨hfresh, hok.1⟩
  have hdestroy := destroyDeep_owned stE.store.length (.mk inner []) stE.store
    howns (by simp [RTree.refs, RTree.refsList]) hkeys
    (by
      have h1 : RTree.depth (.mk inner []) = 1 := by
        simp [RTree.depth, RTree.depthList]
      rw [h1, hstore]
      simp)
  show destroyDeepF stE.store.length inner stE.store = st.store
  have hroot : RTree.root (.mk inner []) = inner := rfl
  rw [← hroot, hdestroy, hstore]
  have hrefs : RTree.refs (.mk inner []) = [inner] := by
    simp [RTree.refs, RTree.refsList]
  rw [hrefs]
  have h1 : removeRefs [inner] ((inner, (⟨.innerBptree, vs⟩ : ArrNode)) :: st.store)
      = removeRefs [inner] st.store := by
    simp [removeRefs, List.filter_cons]
  rw [h1]
  apply removeRefs_eq_self
  intro k hk hkmem
  simp at hkmem
  exact hfresh (hkmem ▸ hk)

/-- The central shape invariant of one stage of `build`: once the spine and
a forest of children are attached to the inner node under construction, the
whole construction is one owned subtree extending the pre-spine store; a
success returns exactly this state, and each failure destroys exactly this
subtree. -/
theorem stage_buildout
    {stB st stE : St} {inner node : Nat} {tN : RTree} {preN preT : Store}
    {ts : List RTree} {v1 : Int} {extraTail : List Int}
    (hB : StOk stB)
    (hstStore : st.store = preN ++ stB.store)
    (htNroot : tN.root = node)
    (hownsN : Owns st.store tN)
    (hpermN : tN.refs.Perm (keys preN))
    (hfreshN : ∀ k ∈ tN.refs, 2 * stB.next + 2 ≤ k)
    (hboundsN : ∀ k ∈ tN.refs, k % 2 = 0 ∧ k ≠ 0 ∧ k < 2 * st.next + 2)
    (hnextS : stB.next ≤ st.next)
    (hinner : inner = 2 * st.next + 2)
    (hv1 : v1 % 2 = 1)
    (htail : ∀ v ∈ extraTail, v % 2 = 1)
    (hokE : StOk stE)
    (hnextE : st.next < stE.next)
    (hstE : stE.store = preT ++ (inner, ⟨.innerBptree,
        v1 :: ((node : Nat) : Int)
          :: ((ts.map fun t => ((t.root : Nat) : Int)) ++ extraTail)⟩) :: st.store)
    (hpermT : (RTree.refsList ts).Perm (keys preT))
    (hownsT : ∀ c ∈ ts, Owns stE.store c)
    (hfreshT : ∀ k ∈ RTree.refsList ts, 2 * st.next + 4 ≤ k) :
    BuildOut stB inner stE := by
  have hnodefacts := hboundsN node (htNroot ▸ tN.root_mem_refs)
  have hpreTfresh : ∀ k ∈ keys preT, 2 * st.next + 4 ≤ k := by
    intro k hk
    exact hfreshT k (hpermT.mem_iff.2 hk)
  have hinnernotpreT : inner ∉ keys preT := by
    intro hmem
    have := hpreTfresh inner hmem
    omega
  have hrefsfacts : ∀ k ∈ RTree.refsList ts, k % 2 = 0 ∧ k ≠ 0 := by
    intro k hk
    have hmem : k ∈ keys stE.store := by
      rw [hstE, keys_append]
      exact List.mem_append_left _ (hpermT.mem_iff.1 hk)
    exact ⟨(hokE.2 k hmem).1, (hokE.2 k hmem).2.1⟩
  have hfindinner : stE.store.find inner
      = some ⟨.innerBptree, v1 :: ((node : Nat) : Int)
          :: ((ts.map fun t => ((t.root : Nat) : Int)) ++ extraTail)⟩ := by
    rw [hstE, Store.find_append_right _ _ _ hinnernotpreT]
    simp [Store.find]
  have hslotsmap : (ts.map fun t => ((t.root : Nat) : Int))
      = ((ts.map RTree.root).map fun r => ((r : Nat) : Int)) := by
    rw [List.map_map]
    rfl
  have hrootsmem : ∀ r ∈ ts.map RTree.root, r ∈ RTree.refsList ts := by
    intro r hr
    obtain ⟨c, hc, rfl⟩ := List.mem_map.1 hr
    exact RTree.mem_refsList.2 ⟨c, hc, c.root_mem_refs⟩
  have hrefSlots : refSlots ⟨.innerBptree, v1 :: ((node : Nat) : Int)
        :: ((ts.map fun t => ((t.root : Nat) : Int)) ++ extraTail)⟩
      = node :: ts.map RTree.root := by
    rw [hslotsmap]
    exact refSlots_build v1 hv1 node hnodefacts.1 hnodefacts.2.1
      (ts.map RTree.root)
      (fun r hr => (hrefsfacts r (hrootsmem r hr)).imp id id)
      extraTail htail
  have hfindN : ∀ k ∈ tN.refs, stE.store.find k = st.store.find k := by
    intro k hk
    have hkb := hboundsN k hk
    rw [hstE, Store.find_append_right _ _ _ (by
      intro hmem
      have := hpreTfresh k hmem
      omega)]
    have hne : ¬ inner = k := by omega
    simp [Store.find, hne]
  refine ⟨hokE, by omega, .mk inner (tN :: ts),
    preT ++ (inner, ⟨.innerBptree, v1 :: ((node : Nat) : Int)
      :: ((ts.map fun t => ((t.root : Nat) : Int)) ++ extraTail)⟩) :: preN,
    rfl, ?_, ?_, ?_, ?_⟩
  · rw [hstE, hstStore]
    simp
  · refine Owns.mk _ hfindinner ?_ ?_
    · rw [hrefSlots, List.map_cons, htNroot]
    · intro c hc
      rcases List.mem_cons.1 hc with rfl | hc
      · exact Owns_mono hownsN _ hfindN
      · exact hownsT c hc
  · show (inner :: RTree.refsList (tN :: ts)).Perm _
    have hrl : RTree.refsList (tN :: ts) = tN.refs ++ RTree.refsList ts := by
      simp [RTree.refsList]
    rw [hrl, keys_append]
    have hkc : keys ((inner, (⟨.innerBptree, v1 :: ((node : Nat) : Int)
        :: ((ts.map fun t => ((t.root : Nat) : Int)) ++ extraTail)⟩ : ArrNode))
          :: preN) = inner :: keys preN := rfl
    rw [hkc]
    have h1 : (tN.refs ++ RTree.refsList ts).Perm (keys preN ++ keys preT) :=
      List.Perm.append hpermN hpermT
    have h2 := h1.cons inner
    have h3 := (@List.perm_append_comm _ (keys preN) (keys preT)).cons inner
    have h4 : (keys preT ++ inner :: keys preN).Perm
        (inner :: (keys preT ++ keys preN)) := List.perm_middle
    exact (h2.trans h3).trans h4.symm
  · intro k hk
    have hrefs : RTree.refs (.mk inner (tN :: ts))
        = inner :: (tN.refs ++ RTree.refsList ts) := by
      simp [RTree.refs, RTree.refsList]
    rw [hrefs] at hk
    rcases List.mem_cons.1 hk with rfl | hk
    · omega
    · rcases List.mem_append.1 hk with hk | hk
      · exact hfreshN k hk
      · have := hfreshT k hk
        omega

/-- Small helper: well-formedness after one allocation, phrased on the
equations `allocNode_ok` returns. -/
theorem StOk_alloc_eq {st st1 : St} (hok : StOk st) {r : Nat} {t : ArrType}
    (hr : r = 2 * st.next + 2) (hstore : st1.store = (r, ⟨t, []⟩) :: st.store)
    (hnext : st1.next = st.next + 1) : StOk st1 := by
  constructor
  · rw [hstore, hr]
    show ((2 * st.next + 2) :: keys st.store).Nodup
    refine List.nodup_cons.2 ⟨?_, hok.1⟩
    intro hmem
    have := hok.2 _ hmem
    omega
  · intro k hk
    rw [hstore] at hk
    show k % 2 = 0 ∧ k ≠ 0 ∧ k < 2 * st1.next + 2
    rw [hnext]
    rcases List.mem_cons.1 hk with rfl | hk
    · omega
    · have := hok.2 k hk
      omega

/-- Specification of one stage of `build` (one iteration of the outer loop,
with its `catch` blocks): on failure the store is restored to its contents
before the spine was built; on success the store is extended by exactly the
new inner node's owned subtree. -/
theorem buildStageE_spec (step : Nat → St → Except St (Nat × Nat × St))
    (hstep : StepSpec step) (F h : Nat) {stB st : St} {node : Nat}
    (rest orig : Nat) (hB : StOk stB) (hnode : BuildOut stB node st) :
    (∀ stE, buildStageE step F h node rest orig st = .error stE →
      stE.store = stB.store ∧ stB.next ≤ stE.next) ∧
    (∀ inner rest' st', buildStageE step F h node rest orig st
        = .ok (inner, rest', st') → BuildOut stB inner st') := by
  have hokS : StOk st := hnode.1
  have hnextS : stB.next ≤ st.next := hnode.2.1
  obtain ⟨tN, preN, htNroot, hstStore, hownsN, hpermN, hfreshN, hndN,
    hboundsN⟩ := BuildOut_refs_facts hnode
  rcases hal : allocNode .innerBptree st with stE1 | ⟨inner, st1⟩
  · -- `new_inner_node.create` failed: outer catch destroys the spine
    have haleq : stE1 = st := allocNode_error hal
    have hd : (destroyDeepSt node stE1).store = stB.store :=
      destroy_buildout hnode hB stE1 (by rw [haleq])
    constructor
    · intro stE hE
      simp only [buildStageE, hal] at hE
      have hEeq : stE = destroyDeepSt node stE1 := (Except.error.inj hE).symm
      subst hEeq
      refine ⟨hd, ?_⟩
      show stB.next ≤ stE1.next
      rw [haleq]
      omega
    · intro inner rest' st' hE
      simp only [buildStageE, hal] at hE
      cases hE
  · obtain ⟨hinner, hst1store, hst1next, _⟩ := allocNode_ok hal
    have hok1 : StOk st1 := StOk_alloc_eq hokS hinner hst1store hst1next
    have hinnerfresh : inner ∉ keys st.store := by
      intro hmem
      have := hokS.2 _ hmem
      omega
    rcases ha1 : appendSlot inner (1 + 2 * (F ^ h : Int)) st1 with stE2 | st2
    · -- first `add` failed: inner catch frees the empty inner node,
      -- outer catch destroys the spine
      have haeq : stE2 = st1 := appendSlot_error ha1
      have hd1 : (destroyDeepSt inner stE2).store = st.store :=
        destroy_unattached_inner hokS hinnerfresh
          (by rw [haeq, hst1store]) (by rw [refSlots_innerBptree]; rfl)
      have hd2 : (destroyDeepSt node (destroyDeepSt inner stE2)).store
          = stB.store :=
        destroy_buildout hnode hB _ hd1
      constructor
      · intro stE hE
        simp only [buildStageE, hal, ha1] at hE
        have hEeq : stE = destroyDeepSt node (destroyDeepSt inner stE2) :=
          (Except.error.inj hE).symm
        subst hEeq
        refine ⟨hd2, ?_⟩
        show stB.next ≤ stE2.next
        rw [haeq]
        omega
      · intro inner' rest' st' hE
        simp only [buildStageE, hal, ha1] at hE
        cases hE
    · obtain ⟨hst2store, hst2next, _⟩ := appendSlot_ok ha1
      have hst2store' : st2.store
          = (inner, ⟨.innerBptree, [1 + 2 * (F ^ h : Int)]⟩) :: st.store := by
        rw [hst2store, hst1store]
        have : Store.push ((inner, (⟨.innerBptree, []⟩ : ArrNode)) :: st.store)
            inner (1 + 2 * (F ^ h : Int))
            = Store.pushN ((inner, (⟨.innerBptree, []⟩ : ArrNode)) :: st.store)
              inner [1 + 2 * (F ^ h : Int)] := rfl
        rw [this, Store.pushN_cons_head _ _ _ _ hinnerfresh]
        simp
      rcases ha2 : appendSlot inner ((node : Nat) : Int) st2 with stE3 | st3
      · -- attaching the spine failed: same two catches fire
        have haeq : stE3 = st2 := appendSlot_error ha2
        have hd1 : (destroyDeepSt inner stE3).store = st.store :=
          destroy_unattached_inner hokS hinnerfresh
            (by rw [haeq, hst2store'])
            (by
              rw [refSlots_innerBptree]
              rw [List.filter_cons_of_neg (by
                rw [refSlot_test_inline _ (inline_slot_odd _)]
                simp)]
              rfl)
        have hd2 : (destroyDeepSt node (destroyDeepSt inner stE3)).store
            = stB.store :=
          destroy_buildout hnode hB _ hd1
        constructor
        · intro stE hE
          simp only [buildStageE, hal, ha1, ha2] at hE
          have hEeq : stE = destroyDeepSt node (destroyDeepSt inner stE3) :=
            (Except.error.inj hE).symm
          subst hEeq
          refine ⟨hd2, ?_⟩
          show stB.next ≤ stE3.next
          rw [haeq]
          omega
        · intro inner' rest' st' hE
          simp only [buildStageE, hal, ha1, ha2] at hE
          cases hE
      · -- spine attached (`node = 0` in the source): run the while loop
        obtain ⟨hst3store, hst3next, _⟩ := appendSlot_ok ha2
        have hst3store' : st3.store
            = (inner, ⟨.innerBptree,
                [1 + 2 * (F ^ h : Int), ((node : Nat) : Int)]⟩) :: st.store := by
          rw [hst3store, hst2store']
          have : Store.push ((inner, (⟨.innerBptree,
              [1 + 2 * (F ^ h : Int)]⟩ : ArrNode)) :: st.store)
              inner ((node : Nat) : Int)
              = Store.pushN ((inner, (⟨.innerBptree,
                [1 + 2 * (F ^ h : Int)]⟩ : ArrNode)) :: st.store)
                inner [((node : Nat) : Int)] := rfl
          rw [this, Store.pushN_cons_head _ _ _ _ hinnerfresh]
          simp
        have hok3 : StOk st3 := by
          refine StOk_of_keys_eq hok1 ?_ (by omega)
          rw [hst3store', hst1store]
          rfl
        have hch := buildChildrenE_spec step hstep inner (F - 1) rest st3 hok3
          (by omega)
        -- any state with the forest attached packages into one owned subtree
        have hmk : ∀ (ts : List RTree) (stX : St), ForestOut st3 inner ts stX →
            BuildOut stB inner stX := by
          intro ts stX hF
          obtain ⟨hokX, hnextX, preT, hstoreX, hpermT, hownsT, hfreshT⟩ := hF
          have hstoreX' : stX.store = preT ++ (inner, ⟨.innerBptree,
              (1 + 2 * (F ^ h : Int)) :: ((node : Nat) : Int)
                :: ((ts.map fun t => ((t.root : Nat) : Int)) ++ [])⟩)
                  :: st.store := by
            rw [hstoreX, hst3store',
              Store.pushN_cons_head _ _ _ _ hinnerfresh]
            simp
          exact stage_buildout hB hstStore htNroot hownsN hpermN hfreshN
            hboundsN hnextS hinner (inline_slot_odd _)
            (by intro v hv; cases hv) hokX (by omega) hstoreX' hpermT hownsT
            (by intro k hk; have := hfreshT k hk; omega)
        rcases hbc : buildChildrenE step inner (F - 1) rest st3
          with stE4 | ⟨rest1, st4⟩
        · -- failure inside the while loop: inner catch destroys the inner
          -- node (the spine and the attached children go with it)
          obtain ⟨ts, hF⟩ := hch.1 stE4 hbc
          have hBO := hmk ts stE4 hF
          have hd := destroy_buildout hBO hB stE4 rfl
          constructor
          · intro stE hE
            simp only [buildStageE, hal, ha1, ha2, hbc] at hE
            have hEeq : stE = destroyDeepSt inner stE4 :=
              (Except.error.inj hE).symm
            subst hEeq
            exact ⟨hd, hBO.2.1⟩
          · intro inner' rest' st' hE
            simp only [buildStageE, hal, ha1, ha2, hbc] at hE
            cases hE
        · -- children complete: add the closing total slot
          obtain ⟨ts, hF⟩ := hch.2 rest1 st4 hbc
          rcases ha3 : appendSlot inner (1 + 2 * ((orig - rest1 : Nat) : Int)) st4
            with stE5 | st5
          · -- the final `add` failed: inner catch destroys the inner node
            have haeq : stE5 = st4 := appendSlot_error ha3
            have hBO := hmk ts st4 hF
            have hd := destroy_buildout hBO hB stE5 (by rw [haeq])
            constructor
            · intro stE hE
              simp only [buildStageE, hal, ha1, ha2, hbc, ha3] at hE
              have hEeq : stE = destroyDeepSt inner stE5 :=
                (Except.error.inj hE).symm
              subst hEeq
              refine ⟨hd, ?_⟩
              show stB.next ≤ stE5.next
              rw [haeq]
              exact hBO.2.1
            · intro inner' rest' st' hE
              simp only [buildStageE, hal, ha1, ha2, hbc, ha3] at hE
              cases hE
          · -- stage complete
            obtain ⟨hokX, hnextX, preT, hstoreX, hpermT, hownsT, hfreshT⟩ := hF
            obtain ⟨hst5store, hst5next, _⟩ := appendSlot_ok ha3
            have hinnernotpreT : inner ∉ keys preT := by
              intro hmem
              have := hfreshT inner (hpermT.mem_iff.2 hmem)
              omega
            have hstore4' : st4.store = preT ++ (inner, ⟨.innerBptree,
                [1 + 2 * (F ^ h : Int), ((node : Nat) : Int)]
                  ++ (ts.map fun t => ((t.root : Nat) : Int))⟩) :: st.store := by
              rw [hstoreX, hst3store',
                Store.pushN_cons_head _ _ _ _ hinnerfresh]
            have hstore5' : st5.store = preT ++ (inner, ⟨.innerBptree,
                (1 + 2 * (F ^ h : Int)) :: ((node : Nat) : Int)
                  :: ((ts.map fun t => ((t.root : Nat) : Int))
                    ++ [1 + 2 * ((orig - rest1 : Nat) : Int)])⟩)
                      :: st.store := by
              rw [hst5store, hstore4',
                Store.push_append_of_not_mem _ _ _ _ hinnernotpreT]
              have hpush : Store.push ((inner, (⟨.innerBptree,
                  [1 + 2 * (F ^ h : Int), ((node : Nat) : Int)]
                    ++ (ts.map fun t => ((t.root : Nat) : Int))⟩ : ArrNode))
                      :: st.store) inner (1 + 2 * ((orig - rest1 : Nat) : Int))
                  = Store.pushN ((inner, (⟨.innerBptree,
                    [1 + 2 * (F ^ h : Int), ((node : Nat) : Int)]
                      ++ (ts.map fun t => ((t.root : Nat) : Int))⟩ : ArrNode))
                        :: st.store) inner
                      [1 + 2 * ((orig - rest1 : Nat) : Int)] := rfl
              rw [hpush, Store.pushN_cons_head _ _ _ _ hinnerfresh]
              simp
            have hok5 : StOk st5 := by
              refine StOk_of_keys_eq hokX ?_ (by omega)
              rw [hst5store, Store.keys_push]
            have howns5 : ∀ c ∈ ts, Owns st5.store c := by
              intro c hc
              refine Owns_mono (hownsT c hc) _ ?_
              intro k hk
              rw [hst5store]
              apply Store.find_push_ne
              have := hfreshT k (RTree.mem_refsList.2 ⟨c, hc, hk⟩)
              omega
            have hBO5 : BuildOut stB inner st5 :=
              stage_buildout hB hstStore htNroot hownsN hpermN hfreshN
                hboundsN hnextS hinner (inline_slot_odd _)
                (by
                  intro v hv
                  rcases List.mem_singleton.1 hv with rfl
                  exact inline_slot_odd _)
                hok5 (by omega) hstore5' hpermT howns5
                (by intro k hk; have := hfreshT k hk; omega)
            constructor
            · intro stE hE
              simp only [buildStageE, hal, ha1, ha2, hbc, ha3] at hE
              cases hE
            · intro inner' rest' st' hE
              simp only [buildStageE, hal, ha1, ha2, hbc, ha3] at hE
              have hp := Except.ok.inj hE
              have hinner2 : inner' = inner := (congrArg Prod.fst hp).symm
              have hst : st' = st5 := (congrArg (fun q => q.2.2) hp).symm
              rw [hinner2, hst]
              exact hBO5

/-- The leaf case of `buildFE` (`fixed_height` 0 or 1 as far as the body it
executes is concerned) satisfies the step contract. -/
theorem buildFE_leaf_stepSpec (F fh : Nat) (hfh : fh = 0 ∨ fh = 1) :
    StepSpec (buildFE F fh) := by
  intro rest st hok
  have hbody : buildFE F fh rest st
      = match createLeafE (min F rest) st with
        | .error st' => .error st'
        | .ok (leaf, st') => .ok (leaf, rest - min F rest, st') := by
    rcases hfh with rfl | rfl <;> rfl
  constructor
  · intro st' hE
    rw [hbody] at hE
    rcases hc : createLeafE (min F rest) st with stE | ⟨leaf, st1⟩
    · rw [hc] at hE
      have : st' = stE := (Except.error.inj hE).symm
      subst this
      obtain ⟨h1, h2⟩ := createLeafE_error hc
      exact ⟨h1, by omega⟩
    · rw [hc] at hE
      cases hE
  · intro r rest' st' hE
    rw [hbody] at hE
    rcases hc : createLeafE (min F rest) st with stE | ⟨leaf, st1⟩
    · rw [hc] at hE
      cases hE
    · rw [hc] at hE
      have hp := Except.ok.inj hE
      have hr : r = leaf := (congrArg Prod.fst hp).symm
      have hst : st' = st1 := (congrArg (fun q => q.2.2) hp).symm
      rw [hr, hst]
      exact createLeafE_buildout hok hc

/-- `buildFE` satisfies the step contract at every `fixed_height`: a failed
call restores the store; a successful call extends it by one owned
subtree.  (This is the cleanup-on-failure property of the recursive
`build`.) -/
theorem buildFE_stepSpec (F : Nat) : ∀ fh, StepSpec (buildFE F fh) := by
  intro fh
  induction fh with
  | zero => exact buildFE_leaf_stepSpec F 0 (Or.inl rfl)
  | succ fh ih =>
    rcases fh with _ | h
    · exact buildFE_leaf_stepSpec F 1 (Or.inr rfl)
    · -- fixed_height = h + 2: spine then one stage
      intro rest st hok
      rcases hsp : buildFE F (h + 1) rest st with stE | ⟨node, r, st1⟩
      · have hprop := (ih rest st hok).1 stE hsp
        constructor
        · intro st' hE
          have hbody : buildFE F (h + 2) rest st = .error stE := by
            show (match buildFE F (h + 1) rest st with
              | Except.error st' => Except.error st'
              | Except.ok (node, r, st') =>
                  buildStageE (fun q => buildFE F (h + 1) q) F (h + 1) node r
                    rest st') = Except.error stE
            rw [hsp]
          rw [hbody] at hE
          have : st' = stE := (Except.error.inj hE).symm
          subst this
          exact hprop
        · intro r rest' st' hE
          have hbody : buildFE F (h + 2) rest st = .error stE := by
            show (match buildFE F (h + 1) rest st with
              | Except.error st' => Except.error st'
              | Except.ok (node, r, st') =>
                  buildStageE (fun q => buildFE F (h + 1) q) F (h + 1) node r
                    rest st') = Except.error stE
            rw [hsp]
          rw [hbody] at hE
          cases hE
      · have hnode : BuildOut st node st1 := (ih rest st hok).2 _ _ _ hsp
        have hstage := buildStageE_spec (fun q => buildFE F (h + 1) q) ih
          F (h + 1) r rest hok hnode
        have hbody : buildFE F (h + 2) rest st
            = buildStageE (fun q => buildFE F (h + 1) q) F (h + 1) node r
                rest st1 := by
          show (match buildFE F (h + 1) rest st with
            | Except.error st' => Except.error st'
            | Except.ok (node, r, st') =>
                buildStageE (fun q => buildFE F (h + 1) q) F (h + 1) node r
                  rest st') = _
          rw [hsp]
        constructor
        · intro st' hE
          rw [hbody] at hE
          exact hstage.1 st' hE
        · intro rr rest' st' hE
          rw [hbody] at hE
          exact hstage.2 rr rest' st' hE

/-- The `fixed_height = 0` outer loop preserves the cleanup contract. -/
theorem build0GoE_spec (F : Nat) :
    ∀ (fuel node h rest orig : Nat) (stB st : St), StOk stB →
      BuildOut stB node st →
      (∀ stE, build0GoE F fuel node h rest orig st = .error stE →
        stE.store = stB.store) ∧
      (∀ r' rest' st', build0GoE F fuel node h rest orig st
          = .ok (r', rest', st') → BuildOut stB r' st') := by
  intro fuel
  induction fuel with
  | zero =>
    intro node h rest orig stB st hB hnode
    constructor
    · intro stE hE
      rcases rest with _ | rr <;> cases hE
    · intro r' rest' st' hE
      rcases rest with _ | rr <;>
        · have hp := Except.ok.inj hE
          have hr : r' = node := (congrArg Prod.fst hp).symm
          have hst : st' = st := (congrArg (fun q => q.2.2) hp).symm
          rw [hr, hst]
          exact hnode
  | succ fuel ih =>
    intro node h rest orig stB st hB hnode
    rcases rest with _ | rr
    · constructor
      · intro stE hE
        cases hE
      · intro r' rest' st' hE
        have hp := Except.ok.inj hE
        have hr : r' = node := (congrArg Prod.fst hp).symm
        have hst : st' = st := (congrArg (fun q => q.2.2) hp).symm
        rw [hr, hst]
        exact hnode
    · have hstage := buildStageE_spec (fun q => buildFE F h q)
        (buildFE_stepSpec F h) F h (rr + 1) orig hB hnode
      rcases hsg : buildStageE (fun q => buildFE F h q) F h node (rr + 1) orig st
        with stE | ⟨node', rest', st4⟩
      · constructor
        · intro stE' hE
          have hbody : build0GoE F (fuel + 1) node h (rr + 1) orig st
              = .error stE := by
            show (match buildStageE (fun q => buildFE F h q) F h node (rr + 1)
                orig st with
              | Except.error st' => Except.error st'
              | Except.ok (node', rest', st') =>
                  build0GoE F fuel node' (h + 1) rest' orig st') = Except.error stE
            rw [hsg]
          rw [hbody] at hE
          have heq : stE' = stE := (Except.error.inj hE).symm
          rw [heq]
          exact (hstage.1 stE hsg).1
        · intro r' rest'' st' hE
          have hbody : build0GoE F (fuel + 1) node h (rr + 1) orig st
              = .error stE := by
            show (match buildStageE (fun q => buildFE F h q) F h node (rr + 1)
                orig st with
              | Except.error st' => Except.error st'
              | Except.ok (node', rest', st') =>
                  build0GoE F fuel node' (h + 1) rest' orig st') = Except.error stE
            rw [hsg]
          rw [hbody] at hE
          cases hE
      · have hBO : BuildOut stB node' st4 := hstage.2 _ _ _ hsg
        have hbody : build0GoE F (fuel + 1) node h (rr + 1) orig st
            = build0GoE F fuel node' (h + 1) rest' orig st4 := by
          show (match buildStageE (fun q => buildFE F h q) F h node (rr + 1)
              orig st with
            | Except.error st' => Except.error st'
            | Except.ok (node', rest', st') =>
                build0GoE F fuel node' (h + 1) rest' orig st') = _
          rw [hsg]
        have hrec := ih node' (h + 1) rest' orig stB st4 hB hBO
        constructor
        · intro stE hE
          rw [hbody] at hE
          exact hrec.1 stE hE
        · intro r' rest'' st' hE
          rw [hbody] at hE
          exact hrec.2 r' rest'' st' hE

/-! ### Claim C2 -/

/-- **C2.** For every input count, `fixed_height`, prior store contents and
every point at which an exception is raised during `build` (every
failure-injection budget, covering `create_leaf` and every Node Store
append), `build` destroys every node it allocated during the failing call —
the inner node under construction, transitively its attached children, and
a partially attached failed child — before the exception propagates: the
escaping error leaves the Node Store exactly as it was before the call, so
no persisted nodes leak. -/
theorem build_cleanup_on_failure (F rest fh : Nat) (st stE : St)
    (hok : StOk st) (herr : buildE F rest fh st = .error stE) :
    stE.store = st.store := by
  by_cases hfh : fh = 0
  · subst hfh
    unfold buildE at herr
    simp only [if_pos rfl] at herr
    rcases hc : createLeafE (min F rest) st with stE1 | ⟨leaf, st1⟩
    · rw [hc] at herr
      have : stE = stE1 := (Except.error.inj herr).symm
      subst this
      exact (createLeafE_error hc).1
    · rw [hc] at herr
      have hleaf : BuildOut st leaf st1 := createLeafE_buildout hok hc
      exact (build0GoE_spec F rest leaf 1 (rest - min F rest) rest st st1
        hok hleaf).1 stE herr
  · unfold buildE at herr
    simp only [if_neg hfh] at herr
    exact ((buildFE_stepSpec F fh rest st hok).1 stE herr).1

/-- Witness for C2: with `F = 2`, 3 elements and a failure injected at the
fifth throwing operation (the second `create_leaf`, called from inside the
first inner node's `while` loop), the escaping error leaves the store
empty — exactly its contents before the call. -/
theorem build_cleanup_on_failure_witness :
    (StOk ⟨[], 0, some 4, []⟩ ∧
      buildE 2 3 0 ⟨[], 0, some 4, []⟩
        = .error ⟨[], 2, some 0, [2, 1]⟩) ∧
    (⟨[], 2, some 0, [2, 1]⟩ : St).store = (⟨[], 0, some 4, []⟩ : St).store :=
  ⟨⟨⟨List.nodup_nil, by intro k hk; cases hk⟩, rfl⟩,
    build_cleanup_on_failure 2 3 0 ⟨[], 0, some 4, []⟩ ⟨[], 2, some 0, [2, 1]⟩
      ⟨List.nodup_nil, by intro k hk; cases hk⟩ rfl⟩

/-! ### `ColumnBaseSimple::introduce_new_root` (column.cpp:117-150)

The owning column is modelled by its current root ref and the external
parent slot that refers to it (`ArrayParent`/`ndx_in_parent` linkage);
`update_parent` writes the column's node ref into that slot. -/

/-- The owning column: its live root ref and the value of its parent slot
(the slot in the parent structure that refers to this column's root). -/
structure Column where
  root : Nat
  parentSlot : Nat
  deriving DecidableEq, Repr

/-- `Array::is_inner_bptree_node` read from the store. -/
def isInnerNode (st : St) (r : Nat) : Bool :=
  match st.store.find r with
  | some a => a.typ = ArrType.innerBptree
  | none => false

/-- `Array::get(0)` read from the store (the first slot). -/
def get0 (st : St) (r : Nat) : Int :=
  match st.store.find r with
  | some a => a.slots.headD 0
  | none => 0

/-- `compact_form = is_append && (!orig_root->is_inner_bptree_node() ||
orig_root->get(0) % 2 != 0)` (column.cpp:131). -/
def compactForm (st : St) (origRoot : Nat) (isAppend : Bool) : Bool :=
  isAppend && (!(isInnerNode st origRoot) || get0 st origRoot % 2 != 0)

/-- The condition of `REALM_ASSERT(!compact_form || is_append)`
(column.cpp:134). -/
def introduceNewRootAssert (st : St) (origRoot : Nat) (isAppend : Bool) :
    Bool :=
  !(compactForm st origRoot isAppend) || isAppend

/-- `ColumnBaseSimple::introduce_new_root(new_sibling_ref, state, is_append)`
(column.cpp:117-150), with `state.m_split_offset` and `state.m_split_size`
passed directly.  Every operation the source marks `// Throws` (the heap
allocation of the new root's accessor, `create`, `update_parent`, each
`add`, and `replace_root_array`'s `update_parent`) passes through the
failure-injection budget; a failed assertion is also surfaced as an error.
An escaping exception leaves the mutated column linkage and store behind,
exactly as in the source, which has no `catch` blocks here. -/
def introduce_new_root (newSiblingRef : Nat) (splitOffset splitSize : Nat)
    (isAppend : Bool) (col : Column) (st : St) :
    Except (Column × St) (Column × St) :=
  -- std::unique_ptr<Array> new_root(new BpTreeNode(alloc)); // Throws
  match tick st with
  | .error st' => .error (col, st')
  | .ok st' =>
  -- new_root->create(Array::type_InnerBptreeNode); // Throws
  match allocNode .innerBptree st' with
  | .error st1 => .error (col, st1)
  | .ok (newRoot, st1) =>
  -- new_root->set_parent(orig_root->get_parent(), orig_root->get_ndx_in_parent());
  -- new_root->update_parent(); // Throws
  match tick st1 with
  | .error st2 => .error (col, st2)
  | .ok st2 =>
  let col1 : Column := { col with parentSlot := newRoot }
  -- REALM_ASSERT(!compact_form || is_append);
  if introduceNewRootAssert st2 col.root isAppend = false then .error (col1, st2)
  else
  match (if compactForm st2 col.root isAppend then
      -- new_root->add(1 + 2*v); v = m_split_offset (elems_per_child)
      appendSlot newRoot (1 + 2 * ((splitOffset : Nat) : Int)) st2
    else
      -- Array new_offsets(alloc); new_offsets.create(Array::type_Normal);
      match allocNode .normal st2 with
      | .error stE => .error stE
      | .ok (offsets, stA) =>
      -- new_offsets.add(to_int64(state.m_split_offset));
      match appendSlot offsets ((splitOffset : Nat) : Int) stA with
      | .error stE => .error stE
      | .ok stB =>
      -- new_root->add(from_ref(new_offsets.get_ref()));
      appendSlot newRoot ((offsets : Nat) : Int) stB) with
  | .error stE => .error (col1, stE)
  | .ok st3 =>
  -- new_root->add(from_ref(orig_root->get_ref()));
  match appendSlot newRoot ((col.root : Nat) : Int) st3 with
  | .error stE => .error (col1, stE)
  | .ok st4 =>
  -- new_root->add(from_ref(new_sibling_ref));
  match appendSlot newRoot ((newSiblingRef : Nat) : Int) st4 with
  | .error stE => .error (col1, stE)
  | .ok st5 =>
  -- int_fast64_t v = to_int64(state.m_split_size); new_root->add(1 + 2*v);
  match appendSlot newRoot (1 + 2 * ((splitSize : Nat) : Int)) st5 with
  | .error stE => .error (col1, stE)
  | .ok st6 =>
  -- replace_root_array: set_parent + update_parent() /* Throws */ + move
  match tick st6 with
  | .error stE => .error (col1, stE)
  | .ok st7 => .ok ({ root := newRoot, parentSlot := newRoot }, st7)

/-! ### `ColumnBaseSimple::write` (column.cpp:108-114) -/

/-- `ColumnBaseSimple::write(root, slice_offset, slice_size, table_size,
handler, out)`: asserts the root is an inner B+-tree node, then delegates
to `BpTreeBase::write_subtree` (defined in bptree.cpp, outside these
sources), abstracted here as the parameter `writeSubtree`. -/
def write (st : St) (root : Nat) (sliceOffset sliceSize tableSize : Nat)
    (writeSubtree : Nat → Nat → Nat → Nat → Nat) : Except Unit Nat :=
  if isInnerNode st root then
    .ok (writeSubtree root sliceOffset sliceSize tableSize)
  else
    .error ()

/-! ### `ColumnBase` default capability surface (column.cpp:50-78) -/

/-- The two `LogicError` kinds the default `ColumnBase` methods throw. -/
inductive LogicError where
  | column_not_nullable
  | type_mismatch
  deriving DecidableEq, Repr

namespace ColumnBase

/-- `ColumnBase::is_nullable()` (column.cpp:50-53). -/
def is_nullable : Bool := false

/-- `ColumnBase::is_null(size_t)` (column.cpp:55-58). -/
def is_null (_ndx : Nat) : Bool := false

/-- `ColumnBase::set_null(size_t)` (column.cpp:60-63): throws
`LogicError::column_not_nullable` before touching the column, whose state
(of any type `σ`) is returned unchanged on the error path. -/
def set_null {σ : Type} (_ndx : Nat) (_col : σ) : Except LogicError σ :=
  .error .column_not_nullable

/-- `ColumnBase::set_string(size_t, StringData)` (column.cpp:75-78): throws
`LogicError::type_mismatch` before touching the column. -/
def set_string {σ : Type} (_ndx : Nat) (_s : String) (_col : σ) :
    Except LogicError σ :=
  .error .type_mismatch

end ColumnBase

/-! ### Behavior of `introduce_new_root` -/

theorem tick_none {st : St} (hb : st.budget = none) : tick st = .ok st := by
  unfold tick
  rw [hb]

theorem allocNode_none {st : St} (hb : st.budget = none) (t : ArrType) :
    allocNode t st = .ok (2 * st.next + 2,
      { st with store := (2 * st.next + 2, ⟨t, []⟩) :: st.store
                next := st.next + 1 }) := by
  unfold allocNode St.freshRef
  rw [tick_none hb]

theorem appendSlot_none {st : St} (hb : st.budget = none) (r : Nat) (v : Int) :
    appendSlot r v st = .ok { st with store := st.store.push r v } := by
  unfold appendSlot
  rw [tick_none hb]

theorem Store.push_cons_head (r : Nat) (a : ArrNode) (ns : Store) (v : Int)
    (h : r ∉ keys ns) :
    Store.push ((r, a) :: ns) r v = (r, ⟨a.typ, a.slots ++ [v]⟩) :: ns := by
  simp [Store.push, Store.push_of_not_mem _ _ _ h]

theorem Store.push_cons_ne (k : Nat) (a : ArrNode) (ns : Store) (r : Nat)
    (v : Int) (h : ¬ k = r) :
    Store.push ((k, a) :: ns) r v = (k, a) :: ns.push r v := by
  simp [Store.push, h]

/-- The condition of `REALM_ASSERT(!compact_form || is_append)` holds for
every store, original root and append flag, because `compact_form` is a
conjunction whose first operand is `is_append`. -/
theorem introduceNewRootAssert_true (st : St) (r : Nat) (a : Bool) :
    introduceNewRootAssert st r a = true := by
  unfold introduceNewRootAssert compactForm
  cases a <;> simp

/-- The run of `introduce_new_root` with no failure injected: it always
succeeds, installs the fresh inner node as the new root (and as the
parent-slot target), and persists exactly the slot sequence
`[first, ref(orig_root), ref(new_sibling), 1 + 2*split_size]` on the new
root, where `first` is the inline slot `1 + 2*split_offset` in compact
form and the ref of a fresh one-entry offsets array holding the raw value
`split_offset` in general form. -/
theorem introduce_new_root_success (sib so ss : Nat) (app : Bool)
    (col : Column) (st : St) (hok : StOk st) (hb : st.budget = none)
    (hroot : col.root ∈ keys st.store) :
    introduce_new_root sib so ss app col st = .ok
      (⟨2 * st.next + 2, 2 * st.next + 2⟩,
        if compactForm st col.root app then
          { st with
            store := (2 * st.next + 2, ⟨.innerBptree,
              [1 + 2 * ((so : Nat) : Int), ((col.root : Nat) : Int),
               ((sib : Nat) : Int), 1 + 2 * ((ss : Nat) : Int)]⟩) :: st.store
            next := st.next + 1 }
        else
          { st with
            store := (2 * st.next + 4, ⟨.normal, [((so : Nat) : Int)]⟩)
              :: (2 * st.next + 2, ⟨.innerBptree,
                [((2 * st.next + 4 : Nat) : Int), ((col.root : Nat) : Int),
                 ((sib : Nat) : Int), 1 + 2 * ((ss : Nat) : Int)]⟩) :: st.store
            next := st.next + 2 }) := by
  have hrootlt : col.root < 2 * st.next + 2 := (hok.2 _ hroot).2.2
  have hR : (2 * st.next + 2) ∉ keys st.store := by
    intro hmem
    have := hok.2 _ hmem
    omega
  have hO : (2 * st.next + 4) ∉ keys st.store := by
    intro hmem
    have := hok.2 _ hmem
    omega
  have hRcons : (2 * st.next + 4) ∉
      keys ((2 * st.next + 2, (⟨.innerBptree, []⟩ : ArrNode)) :: st.store) := by
    intro hmem
    rcases List.mem_cons.1 hmem with h1 | h1
    · omega
    · exact hO h1
  have hfindroot : Store.find
      ((2 * st.next + 2, (⟨.innerBptree, []⟩ : ArrNode)) :: st.store) col.root
      = st.store.find col.root := by
    have hne : ¬ 2 * st.next + 2 = col.root := by omega
    simp [Store.find, hne]
  have hcfeq : compactForm
      ⟨(2 * st.next + 2, ⟨.innerBptree, []⟩) :: st.store, st.next + 1,
        none, st.calls⟩ col.root app
      = compactForm st col.root app := by
    unfold compactForm isInnerNode get0
    rw [show (⟨(2 * st.next + 2, ⟨.innerBptree, []⟩) :: st.store,
        st.next + 1, none, st.calls⟩ : St).store
      = (2 * st.next + 2, (⟨.innerBptree, []⟩ : ArrNode)) :: st.store from rfl]
    rw [hfindroot]
  have hassert : ∀ st' r a, introduceNewRootAssert st' r a = true :=
    fun st' r a => introduceNewRootAssert_true st' r a
  have harith1 : 2 * (st.next + 1) + 2 = 2 * st.next + 4 := by omega
  have harith2 : st.next + 1 + 1 = st.next + 2 := by omega
  unfold introduce_new_root
  rcases hcf : compactForm st col.root app
  · -- general form
    have hp1 : Store.push ((2 * st.next + 4, (⟨.normal, []⟩ : ArrNode))
        :: (2 * st.next + 2, (⟨.innerBptree, []⟩ : ArrNode)) :: st.store)
        (2 * st.next + 4) ((so : Nat) : Int)
      = (2 * st.next + 4, (⟨.normal, [((so : Nat) : Int)]⟩ : ArrNode))
        :: (2 * st.next + 2, (⟨.innerBptree, []⟩ : ArrNode)) :: st.store := by
      rw [Store.push_cons_head _ _ _ _ hRcons]
      simp
    have hp2 : Store.push ((2 * st.next + 4, (⟨.normal,
          [((so : Nat) : Int)]⟩ : ArrNode))
        :: (2 * st.next + 2, (⟨.innerBptree, []⟩ : ArrNode)) :: st.store)
        (2 * st.next + 2) ((2 * st.next + 4 : Nat) : Int)
      = (2 * st.next + 4, (⟨.normal, [((so : Nat) : Int)]⟩ : ArrNode))
        :: (2 * st.next + 2, (⟨.innerBptree,
          [((2 * st.next + 4 : Nat) : Int)]⟩ : ArrNode)) :: st.store := by
      rw [Store.push_cons_ne _ _ _ _ _ (by omega),
        Store.push_cons_head _ _ _ _ hR]
      simp
    have hp3 : Store.push ((2 * st.next + 4, (⟨.normal,
          [((so : Nat) : Int)]⟩ : ArrNode))
        :: (2 * st.next + 2, (⟨.innerBptree,
          [((2 * st.next + 4 : Nat) : Int)]⟩ : ArrNode)) :: st.store)
        (2 * st.next + 2) ((col.root : Nat) : Int)
      = (2 * st.next + 4, (⟨.normal, [((so : Nat) : Int)]⟩ : ArrNode))
        :: (2 * st.next + 2, (⟨.innerBptree,
          [((2 * st.next + 4 : Nat) : Int),
           ((col.root : Nat) : Int)]⟩ : ArrNode)) :: st.store := by
      rw [Store.push_cons_ne _ _ _ _ _ (by omega),
        Store.push_cons_head _ _ _ _ hR]
      simp
    have hp4 : Store.push ((2 * st.next + 4, (⟨.normal,
          [((so : Nat) : Int)]⟩ : ArrNode))
        :: (2 * st.next + 2, (⟨.innerBptree,
          [((2 * st.next + 4 : Nat) : Int),
           ((col.root : Nat) : Int)]⟩ : ArrNode)) :: st.store)
        (2 * st.next + 2) ((sib : Nat) : Int)
      = (2 * st.next + 4, (⟨.normal, [((so : Nat) : Int)]⟩ : ArrNode))
        :: (2 * st.next + 2, (⟨.innerBptree,
          [((2 * st.next + 4 : Nat) : Int), ((col.root : Nat) : Int),
           ((sib : Nat) : Int)]⟩ : ArrNode)) :: st.store := by
      rw [Store.push_cons_ne _ _ _ _ _ (by omega),
        Store.push_cons_head _ _ _ _ hR]
      simp
    have hp5 : Store.push ((2 * st.next + 4, (⟨.normal,
          [((so : Nat) : Int)]⟩ : ArrNode))
        :: (2 * st.next + 2, (⟨.innerBptree,
          [((2 * st.next + 4 : Nat) : Int), ((col.root : Nat) : Int),
           ((sib : Nat) : Int)]⟩ : ArrNode)) :: st.store)
        (2 * st.next + 2) (1 + 2 * ((ss : Nat) : Int))
      = (2 * st.next + 4, (⟨.normal, [((so : Nat) : Int)]⟩ : ArrNode))
        :: (2 * st.next + 2, (⟨.innerBptree,
          [((2 * st.next + 4 : Nat) : Int), ((col.root : Nat) : Int),
           ((sib : Nat) : Int), 1 + 2 * ((ss : Nat) : Int)]⟩ : ArrNode))
          :: st.store := by
      rw [Store.push_cons_ne _ _ _ _ _ (by omega),
        Store.push_cons_head _ _ _ _ hR]
      simp
    simp only [tick_none, allocNode_none, appendSlot_none, hb, hassert,
      hcfeq, hcf, harith1, harith2, hp1, hp2, hp3, hp4, hp5,
      Bool.true_eq_false, Bool.false_eq_true, if_false, if_true,
      reduceIte]
  · -- compact form
    have hp1 : Store.push ((2 * st.next + 2, (⟨.innerBptree, []⟩ : ArrNode))
        :: st.store) (2 * st.next + 2) (1 + 2 * ((so : Nat) : Int))
      = (2 * st.next + 2, (⟨.innerBptree,
          [1 + 2 * ((so : Nat) : Int)]⟩ : ArrNode)) :: st.store := by
      rw [Store.push_cons_head _ _ _ _ hR]
      simp
    have hp2 : Store.push ((2 * st.next + 2, (⟨.innerBptree,
          [1 + 2 * ((so : Nat) : Int)]⟩ : ArrNode)) :: st.store)
        (2 * st.next + 2) ((col.root : Nat) : Int)
      = (2 * st.next + 2, (⟨.innerBptree,
          [1 + 2 * ((so : Nat) : Int),
           ((col.root : Nat) : Int)]⟩ : ArrNode)) :: st.store := by
      rw [Store.push_cons_head _ _ _ _ hR]
      simp
    have hp3 : Store.push ((2 * st.next + 2, (⟨.innerBptree,
          [1 + 2 * ((so : Nat) : Int),
           ((col.root : Nat) : Int)]⟩ : ArrNode)) :: st.store)
        (2 * st.next + 2) ((sib : Nat) : Int)
      = (2 * st.next + 2, (⟨.innerBptree,
          [1 + 2 * ((so : Nat) : Int), ((col.root : Nat) : Int),
           ((sib : Nat) : Int)]⟩ : ArrNode)) :: st.store := by
      rw [Store.push_cons_head _ _ _ _ hR]
      simp
    have hp4 : Store.push ((2 * st.next + 2, (⟨.innerBptree,
          [1 + 2 * ((so : Nat) : Int), ((col.root : Nat) : Int),
           ((sib : Nat) : Int)]⟩ : ArrNode)) :: st.store)
        (2 * st.next + 2) (1 + 2 * ((ss : Nat) : Int))
      = (2 * st.next + 2, (⟨.innerBptree,
          [1 + 2 * ((so : Nat) : Int), ((col.root : Nat) : Int),
           ((sib : Nat) : Int), 1 + 2 * ((ss : Nat) : Int)]⟩ : ArrNode))
          :: st.store := by
      rw [Store.push_cons_head _ _ _ _ hR]
      simp
    simp only [tick_none, allocNode_none, appendSlot_none, hb, hassert,
      hcfeq, hcf, hp1, hp2, hp3, hp4,
      Bool.true_eq_false, Bool.false_eq_true, if_false, if_true,
      reduceIte]

/-- `compact_form` in propositional form. -/
theorem compactForm_eq_true_iff (st : St) (r : Nat) (a : Bool) :
    compactForm st r a = true ↔
      (a = true ∧ (isInnerNode st r = false ∨ get0 st r % 2 ≠ 0)) := by
  unfold compactForm
  simp [Bool.and_eq_true, Bool.or_eq_true, Bool.not_eq_true', bne_iff_ne]

/-! ### Claims C3, C4 and C7 -/

/-- **C7.** `introduce_new_root` rejects, via the fatal assertion
`REALM_ASSERT(!compact_form || is_append)`, every call in which
`compact_form` is computed true while `is_append` is false; equivalently,
the assertion never fails for any inputs, since `compact_form` is defined
as a conjunction whose first operand is `is_append`. -/
theorem introduce_new_root_assert_never_fails (st : St) (r : Nat) (a : Bool) :
    (compactForm st r a = true → a = true) ∧
    introduceNewRootAssert st r a = true := by
  refine ⟨?_, introduceNewRootAssert_true st r a⟩
  intro hc
  exact ((compactForm_eq_true_iff st r a).1 hc).1

/-- **C3.** The new root is built in compact form (its first slot is the
odd inline encoding) if and only if `is_append` is true and the original
root is either a leaf (not an inner B+-tree node) or an inner node whose
first slot is inline (odd); otherwise (in particular, whenever
`is_append` is false) the new root is built in general form (its first
slot is the even ref of the offsets array). -/
theorem introduce_new_root_compact_iff (sib so ss : Nat) (app : Bool)
    (col : Column) (st : St) (hok : StOk st) (hb : st.budget = none)
    (hroot : col.root ∈ keys st.store) :
    ∃ colOut stOut,
      introduce_new_root sib so ss app col st = .ok (colOut, stOut) ∧
      (get0 stOut colOut.root % 2 = 1 ↔
        (app = true ∧ (isInnerNode st col.root = false ∨
          get0 st col.root % 2 ≠ 0))) := by
  have hsucc := introduce_new_root_success sib so ss app col st hok hb hroot
  rcases hcf : compactForm st col.root app
  · rw [if_neg (by simp [hcf])] at hsucc
    refine ⟨_, _, hsucc, ?_⟩
    have hget : get0 (⟨(2 * st.next + 4, ⟨.normal, [((so : Nat) : Int)]⟩)
        :: (2 * st.next + 2, ⟨.innerBptree,
          [((2 * st.next + 4 : Nat) : Int), ((col.root : Nat) : Int),
           ((sib : Nat) : Int), 1 + 2 * ((ss : Nat) : Int)]⟩) :: st.store,
        st.next + 2, st.budget, st.calls⟩ : St) (2 * st.next + 2)
        = ((2 * st.next + 4 : Nat) : Int) := by
      unfold get0
      have hne : ¬ 2 * st.next + 4 = 2 * st.next + 2 := by omega
      simp [Store.find, hne]
    constructor
    · intro hodd
      exfalso
      rw [show (⟨2 * st.next + 2, 2 * st.next + 2⟩ : Column).root
        = 2 * st.next + 2 from rfl] at hodd
      rw [hget] at hodd
      omega
    · intro hrhs
      exfalso
      have := (compactForm_eq_true_iff st col.root app).2 hrhs
      rw [hcf] at this
      cases this
  · rw [if_pos hcf] at hsucc
    refine ⟨_, _, hsucc, ?_⟩
    have hget : get0 (⟨(2 * st.next + 2, ⟨.innerBptree,
          [1 + 2 * ((so : Nat) : Int), ((col.root : Nat) : Int),
           ((sib : Nat) : Int), 1 + 2 * ((ss : Nat) : Int)]⟩) :: st.store,
        st.next + 1, st.budget, st.calls⟩ : St) (2 * st.next + 2)
        = 1 + 2 * ((so : Nat) : Int) := by
      unfold get0
      simp [Store.find]
    constructor
    · intro _
      exact (compactForm_eq_true_iff st col.root app).1 hcf
    · intro _
      rw [show (⟨2 * st.next + 2, 2 * st.next + 2⟩ : Column).root
        = 2 * st.next + 2 from rfl]
      rw [hget]
      exact inline_slot_odd _

/-- Witness for C3: an append over a leaf-rooted column produces a compact
(odd) first slot. -/
theorem introduce_new_root_compact_iff_witness :
    (StOk ⟨[(2, ⟨.normal, []⟩)], 1, none, []⟩ ∧
      (⟨[(2, ⟨.normal, []⟩)], 1, none, []⟩ : St).budget = none ∧
      (⟨2, 2⟩ : Column).root ∈ keys (⟨[(2, ⟨.normal, []⟩)], 1, none, []⟩ : St).store) ∧
    ∃ colOut stOut,
      introduce_new_root 6 4 6 true ⟨2, 2⟩ ⟨[(2, ⟨.normal, []⟩)], 1, none, []⟩
        = .ok (colOut, stOut) ∧
      (get0 stOut colOut.root % 2 = 1 ↔
        (true = true ∧ (isInnerNode ⟨[(2, ⟨.normal, []⟩)], 1, none, []⟩ 2 = false ∨
          get0 ⟨[(2, ⟨.normal, []⟩)], 1, none, []⟩ 2 % 2 ≠ 0))) :=
  ⟨⟨⟨by decide, by decide⟩, rfl, by decide⟩,
    introduce_new_root_compact_iff 6 4 6 true ⟨2, 2⟩
      ⟨[(2, ⟨.normal, []⟩)], 1, none, []⟩
      ⟨by decide, by decide⟩ rfl (by decide)⟩

/-- **C4.** Every call to `introduce_new_root` produces a new root whose
slot sequence is exactly, in order: a first slot equal to
`1 + 2*split_offset` when compact, or the ref of a freshly allocated
offsets array whose only entry is the raw value `split_offset` when
general; then the ref of the original root; then the ref of the new
sibling; then a closing inline slot equal to `1 + 2*split_size`. -/
theorem introduce_new_root_slot_sequence (sib so ss : Nat) (app : Bool)
    (col : Column) (st : St) (hok : StOk st) (hb : st.budget = none)
    (hroot : col.root ∈ keys st.store) :
    ∃ stOut, introduce_new_root sib so ss app col st
        = .ok (⟨2 * st.next + 2, 2 * st.next + 2⟩, stOut) ∧
      (compactForm st col.root app = true →
        stOut.store.find (2 * st.next + 2) = some ⟨.innerBptree,
          [1 + 2 * ((so : Nat) : Int), ((col.root : Nat) : Int),
           ((sib : Nat) : Int), 1 + 2 * ((ss : Nat) : Int)]⟩) ∧
      (compactForm st col.root app = false →
        stOut.store.find (2 * st.next + 2) = some ⟨.innerBptree,
          [((2 * st.next + 4 : Nat) : Int), ((col.root : Nat) : Int),
           ((sib : Nat) : Int), 1 + 2 * ((ss : Nat) : Int)]⟩ ∧
        stOut.store.find (2 * st.next + 4) = some ⟨.normal,
          [((so : Nat) : Int)]⟩) := by
  have hsucc := introduce_new_root_success sib so ss app col st hok hb hroot
  rcases hcf : compactForm st col.root app
  · rw [if_neg (by simp [hcf])] at hsucc
    refine ⟨_, hsucc, ?_, ?_⟩
    · intro hc
      simp [hcf] at hc
    · intro _
      constructor
      · show Store.find ((2 * st.next + 4, ⟨.normal, [((so : Nat) : Int)]⟩)
          :: (2 * st.next + 2, ⟨.innerBptree,
            [((2 * st.next + 4 : Nat) : Int), ((col.root : Nat) : Int),
             ((sib : Nat) : Int), 1 + 2 * ((ss : Nat) : Int)]⟩) :: st.store)
          (2 * st.next + 2) = _
        have hne : ¬ 2 * st.next + 4 = 2 * st.next + 2 := by omega
        simp [Store.find, hne]
      · show Store.find ((2 * st.next + 4, ⟨.normal, [((so : Nat) : Int)]⟩)
          :: (2 * st.next + 2, ⟨.innerBptree,
            [((2 * st.next + 4 : Nat) : Int), ((col.root : Nat) : Int),
             ((sib : Nat) : Int), 1 + 2 * ((ss : Nat) : Int)]⟩) :: st.store)
          (2 * st.next + 4) = _
        simp [Store.find]
  · rw [if_pos hcf] at hsucc
    refine ⟨_, hsucc, ?_, ?_⟩
    · intro _
      show Store.find ((2 * st.next + 2, ⟨.innerBptree,
          [1 + 2 * ((so : Nat) : Int), ((col.root : Nat) : Int),
           ((sib : Nat) : Int), 1 + 2 * ((ss : Nat) : Int)]⟩) :: st.store)
          (2 * st.next + 2) = _
      simp [Store.find]
    · intro hc
      simp [hcf] at hc

/-- Witness for C4: the claim's concrete scenario.  `leaf_A` (size 4) is
the original root at ref 2, `leaf_B` (size 2) the new sibling at ref 4,
`split_offset = 4`, `split_size = 6`, `is_append = true`: the result is a
2-child compact inner root `[9, 2, 4, 13]`, i.e. `elems_per_child = 4`,
then `leaf_A`, then `leaf_B`, total count 6. -/
theorem introduce_new_root_slot_sequence_witness :
    (StOk ⟨[(2, ⟨.normal, []⟩), (4, ⟨.normal, []⟩)], 2, none, []⟩ ∧
      (⟨2, 2⟩ : Column).root
        ∈ keys (⟨[(2, ⟨.normal, []⟩), (4, ⟨.normal, []⟩)], 2, none, []⟩ : St).store) ∧
    (∃ stOut, introduce_new_root 4 4 6 true ⟨2, 2⟩
        ⟨[(2, ⟨.normal, []⟩), (4, ⟨.normal, []⟩)], 2, none, []⟩
        = .ok (⟨6, 6⟩, stOut) ∧
      (compactForm ⟨[(2, ⟨.normal, []⟩), (4, ⟨.normal, []⟩)], 2, none, []⟩ 2 true = true →
        stOut.store.find 6 = some ⟨.innerBptree, [9, 2, 4, 13]⟩) ∧
      (compactForm ⟨[(2, ⟨.normal, []⟩), (4, ⟨.normal, []⟩)], 2, none, []⟩ 2 true = false →
        stOut.store.find 6 = some ⟨.innerBptree, [8, 2, 4, 13]⟩ ∧
        stOut.store.find 8 = some ⟨.normal, [4]⟩)) :=
  ⟨⟨⟨by decide, by decide⟩, by decide⟩,
    introduce_new_root_slot_sequence 4 4 6 true ⟨2, 2⟩
      ⟨[(2, ⟨.normal, []⟩), (4, ⟨.normal, []⟩)], 2, none, []⟩
      ⟨by decide, by decide⟩ rfl (by decide)⟩

/-! ### Claim C5 -/

/-- Counterexample to C5.  Column rooted at leaf ref 2, appending: with a
failure injected at the fourth throwing operation (the first `add` on the
new root, after `update_parent` has already run), the escaping error leaves
the freshly allocated new root (ref 4) in the store — it is not destroyed —
and the parent slot already rewired from 2 to the incompletely built new
root 4.  The source `introduce_new_root` has no `catch` blocks, so nothing
is unwound. -/
theorem introduce_new_root_cleanup_cex :
    introduce_new_root 6 4 6 true ⟨2, 2⟩ ⟨[(2, ⟨.normal, []⟩)], 1, some 3, []⟩
      = .error (⟨2, 4⟩,
          ⟨[(4, ⟨.innerBptree, []⟩), (2, ⟨.normal, []⟩)], 2, some 0, []⟩) ∧
    4 ∈ keys (⟨[(4, ⟨.innerBptree, []⟩), (2, ⟨.normal, []⟩)], 2, some 0,
      []⟩ : St).store ∧
    (⟨2, 4⟩ : Column).parentSlot ≠ (⟨2, 2⟩ : Column).parentSlot :=
  ⟨rfl, by decide, by decide⟩

/-- **C5 (amended).** `introduce_new_root` performs no cleanup on failure:
whenever a Node Store operation fails after the new root node has been
created and the parent linkage updated (the third throwing operation
onwards — budget at least 3), the propagated error leaves the freshly
allocated new root in the store (nothing the call allocated is destroyed)
and the original root's parent slot already rewired to the incompletely
built new root, so the tree is not left as it was before the call. -/
theorem introduce_new_root_no_cleanup (sib so ss : Nat) (app : Bool)
    (col : Column) (st : St) (k : Nat) (hk : 3 ≤ k) (hb : st.budget = some k)
    (col' : Column) (stE : St)
    (herr : introduce_new_root sib so ss app col st = .error (col', stE)) :
    col'.parentSlot = 2 * st.next + 2 ∧ (2 * st.next + 2) ∈ keys stE.store := by
  obtain ⟨k', rfl⟩ : ∃ k', k = k' + 3 := ⟨k - 3, by omega⟩
  have ht1 : tick st = .ok ⟨st.store, st.next, some (k' + 2), st.calls⟩ := by
    unfold tick
    rw [hb]
  have ht2 : allocNode .innerBptree
      (⟨st.store, st.next, some (k' + 2), st.calls⟩ : St)
      = .ok (2 * st.next + 2,
        ⟨(2 * st.next + 2, ⟨.innerBptree, []⟩) :: st.store, st.next + 1,
          some (k' + 1), st.calls⟩) := rfl
  have ht3 : tick (⟨(2 * st.next + 2, ⟨.innerBptree, []⟩) :: st.store,
      st.next + 1, some (k' + 1), st.calls⟩ : St)
      = .ok ⟨(2 * st.next + 2, ⟨.innerBptree, []⟩) :: st.store, st.next + 1,
        some k', st.calls⟩ := rfl
  have hmem0 : (2 * st.next + 2) ∈
      keys ((2 * st.next + 2, (⟨.innerBptree, []⟩ : ArrNode)) :: st.store) :=
    List.mem_cons_self _ _
  unfold introduce_new_root at herr
  rw [ht1] at herr
  simp only [ht2, ht3, introduceNewRootAssert_true, Bool.true_eq_false,
    if_false] at herr
  -- `herr` is now the residual computation from the state after
  -- `update_parent`, with `col1.parentSlot` already the new root
  rcases hfirst : (if compactForm ⟨(2 * st.next + 2, ⟨.innerBptree, []⟩)
        :: st.store, st.next + 1, some k', st.calls⟩ col.root app = true then
      appendSlot (2 * st.next + 2) (1 + 2 * ((so : Nat) : Int))
        ⟨(2 * st.next + 2, ⟨.innerBptree, []⟩) :: st.store, st.next + 1,
          some k', st.calls⟩
    else
      match allocNode .normal ⟨(2 * st.next + 2, ⟨.innerBptree, []⟩)
          :: st.store, st.next + 1, some k', st.calls⟩ with
      | .error stE => .error stE
      | .ok (offsets, stA) =>
      match appendSlot offsets ((so : Nat) : Int) stA with
      | .error stE => .error stE
      | .ok stB => appendSlot (2 * st.next + 2) ((offsets : Nat) : Int) stB)
    with stF | st3
  · -- the first-slot phase failed
    simp only [hfirst] at herr
    have hp := Except.error.inj herr
    have hcol : col' = ⟨col.root, 2 * st.next + 2⟩ :=
      (congrArg Prod.fst hp).symm
    have hstE : stE = stF := (congrArg Prod.snd hp).symm
    refine ⟨by rw [hcol], ?_⟩
    rw [hstE]
    -- whichever way the first-slot phase failed, the new root survives
    rcases hc : compactForm ⟨(2 * st.next + 2, ⟨.innerBptree, []⟩)
        :: st.store, st.next + 1, some k', st.calls⟩ col.root app
    · rw [if_neg (by simp [hc])] at hfirst
      rcases hA : allocNode .normal ⟨(2 * st.next + 2, ⟨.innerBptree, []⟩)
          :: st.store, st.next + 1, some k', st.calls⟩ with e | ⟨off, sA⟩
      · simp only [hA] at hfirst
        have he : stF = e := (Except.error.inj hfirst).symm
        have := allocNode_error hA
        rw [he, this]
        exact hmem0
      · simp only [hA] at hfirst
        obtain ⟨hoff, hsAstore, _, _⟩ := allocNode_ok hA
        have hmemA : (2 * st.next + 2) ∈ keys sA.store := by
          rw [hsAstore]
          exact List.mem_cons_of_mem _ hmem0
        rcases hA2 : appendSlot off ((so : Nat) : Int) sA with e2 | sB
        · simp only [hA2] at hfirst
          have he : stF = e2 := (Except.error.inj hfirst).symm
          rw [he, appendSlot_error hA2]
          exact hmemA
        · simp only [hA2] at hfirst
          obtain ⟨hsBstore, _, _⟩ := appendSlot_ok hA2
          have hmemB : (2 * st.next + 2) ∈ keys sB.store := by
            rw [hsBstore, Store.keys_push]
            exact hmemA
          have he : appendSlot (2 * st.next + 2) ((off : Nat) : Int) sB
              = .error stF := hfirst
          rw [appendSlot_error he]
          exact hmemB
    · rw [if_pos hc] at hfirst
      rw [appendSlot_error hfirst]
      exact hmem0
  · -- first-slot phase succeeded with state st3; the new root is in st3
    have hmem3 : (2 * st.next + 2) ∈ keys st3.store := by
      rcases hc : compactForm ⟨(2 * st.next + 2, ⟨.innerBptree, []⟩)
          :: st.store, st.next + 1, some k', st.calls⟩ col.root app
      · rw [if_neg (by simp [hc])] at hfirst
        rcases hA : allocNode .normal ⟨(2 * st.next + 2, ⟨.innerBptree, []⟩)
            :: st.store, st.next + 1, some k', st.calls⟩ with e | ⟨off, sA⟩
        · simp only [hA] at hfirst
          cases hfirst
        · simp only [hA] at hfirst
          obtain ⟨hoff, hsAstore, _, _⟩ := allocNode_ok hA
          have hmemA : (2 * st.next + 2) ∈ keys sA.store := by
            rw [hsAstore]
            exact List.mem_cons_of_mem _ hmem0
          rcases hA2 : appendSlot off ((so : Nat) : Int) sA with e2 | sB
          · simp only [hA2] at hfirst
            cases hfirst
          · simp only [hA2] at hfirst
            obtain ⟨hsBstore, _, _⟩ := appendSlot_ok hA2
            obtain ⟨hst3store, _, _⟩ := appendSlot_ok hfirst
            rw [hst3store, Store.keys_push, hsBstore, Store.keys_push]
            exact hmemA
      · rw [if_pos hc] at hfirst
        obtain ⟨hst3store, _, _⟩ := appendSlot_ok hfirst
        rw [hst3store, Store.keys_push]
        exact hmem0
    simp only [hfirst] at herr
    rcases h4 : appendSlot (2 * st.next + 2) ((col.root : Nat) : Int) st3
      with e4 | st4
    · simp only [h4] at herr
      have hp := Except.error.inj herr
      have hcol : col' = ⟨col.root, 2 * st.next + 2⟩ :=
        (congrArg Prod.fst hp).symm
      have hstE2 : stE = e4 := (congrArg Prod.snd hp).symm
      refine ⟨by rw [hcol], ?_⟩
      rw [hstE2, appendSlot_error h4]
      exact hmem3
    · simp only [h4] at herr
      obtain ⟨hst4store, _, _⟩ := appendSlot_ok h4
      have hmem4 : (2 * st.next + 2) ∈ keys st4.store := by
        rw [hst4store, Store.keys_push]
        exact hmem3
      rcases h5 : appendSlot (2 * st.next + 2) ((sib : Nat) : Int) st4
        with e5 | st5
      · simp only [h5] at herr
        have hp := Except.error.inj herr
        have hcol : col' = ⟨col.root, 2 * st.next + 2⟩ :=
          (congrArg Prod.fst hp).symm
        have hstE2 : stE = e5 := (congrArg Prod.snd hp).symm
        refine ⟨by rw [hcol], ?_⟩
        rw [hstE2, appendSlot_error h5]
        exact hmem4
      · simp only [h5] at herr
        obtain ⟨hst5store, _, _⟩ := appendSlot_ok h5
        have hmem5 : (2 * st.next + 2) ∈ keys st5.store := by
          rw [hst5store, Store.keys_push]
          exact hmem4
        rcases h6 : appendSlot (2 * st.next + 2)
            (1 + 2 * ((ss : Nat) : Int)) st5 with e6 | st6
        · simp only [h6] at herr
          have hp := Except.error.inj herr
          have hcol : col' = ⟨col.root, 2 * st.next + 2⟩ :=
            (congrArg Prod.fst hp).symm
          have hstE2 : stE = e6 := (congrArg Prod.snd hp).symm
          refine ⟨by rw [hcol], ?_⟩
          rw [hstE2, appendSlot_error h6]
          exact hmem5
        · simp only [h6] at herr
          obtain ⟨hst6store, _, _⟩ := appendSlot_ok h6
          have hmem6 : (2 * st.next + 2) ∈ keys st6.store := by
            rw [hst6store, Store.keys_push]
            exact hmem5
          rcases h7 : tick st6 with e7 | st7
          · simp only [h7] at herr
            have hp := Except.error.inj herr
            have hcol : col' = ⟨col.root, 2 * st.next + 2⟩ :=
              (congrArg Prod.fst hp).symm
            have hstE2 : stE = e7 := (congrArg Prod.snd hp).symm
            refine ⟨by rw [hcol], ?_⟩
            rw [hstE2, tick_error h7]
            exact hmem6
          · simp only [h7] at herr
            cases herr

/-- Witness for the amended C5 at the counterexample's concrete input. -/
theorem introduce_new_root_no_cleanup_witness :
    (3 ≤ 3 ∧ (⟨[(2, ⟨.normal, []⟩)], 1, some 3, []⟩ : St).budget = some 3 ∧
      introduce_new_root 6 4 6 true ⟨2, 2⟩
        ⟨[(2, ⟨.normal, []⟩)], 1, some 3, []⟩
        = .error (⟨2, 4⟩, ⟨[(4, ⟨.innerBptree, []⟩), (2, ⟨.normal, []⟩)], 2,
            some 0, []⟩)) ∧
    ((⟨2, 4⟩ : Column).parentSlot = 2 * 1 + 2 ∧
      (2 * 1 + 2) ∈ keys (⟨[(4, ⟨.innerBptree, []⟩), (2, ⟨.normal, []⟩)], 2,
        some 0, []⟩ : St).store) :=
  ⟨⟨by decide, rfl, rfl⟩,
    introduce_new_root_no_cleanup 6 4 6 true ⟨2, 2⟩
      ⟨[(2, ⟨.normal, []⟩)], 1, some 3, []⟩ 3 (by decide) rfl ⟨2, 4⟩
      ⟨[(4, ⟨.innerBptree, []⟩), (2, ⟨.normal, []⟩)], 2, some 0, []⟩ rfl⟩

/-! ### Claim C8 -/

/-- **C8.** `write` (the Tree Exporter entry point) requires its root
argument to be an inner B+-tree node: for every call whose root is a bare
leaf (not an inner node) the fatal assertion
`REALM_ASSERT(root->is_inner_bptree_node())` fires, and under the
precondition that the root is an inner node the assertion branch is
unreachable and the call delegates to the subtree writer
`BpTreeBase::write_subtree`. -/
theorem write_requires_inner_root (st : St) (root sliceOffset sliceSize
    tableSize : Nat) (writeSubtree : Nat → Nat → Nat → Nat → Nat) :
    (isInnerNode st root = false →
      write st root sliceOffset sliceSize tableSize writeSubtree
        = .error ()) ∧
    (isInnerNode st root = true →
      write st root sliceOffset sliceSize tableSize writeSubtree
        = .ok (writeSubtree root sliceOffset sliceSize tableSize)) := by
  constructor
  · intro h
    unfold write
    rw [if_neg (by simp [h])]
  · intro h
    unfold write
    rw [if_pos h]

/-- Witness for C8: a leaf root is rejected, an inner root delegates. -/
theorem write_requires_inner_root_witness :
    (isInnerNode ⟨[(2, ⟨.normal, []⟩)], 1, none, []⟩ 2 = false ∧
      write ⟨[(2, ⟨.normal, []⟩)], 1, none, []⟩ 2 0 1 1 (fun _ _ _ _ => 0)
        = .error ()) ∧
    (isInnerNode ⟨[(2, ⟨.innerBptree, [9, 4, 11]⟩)], 1, none, []⟩ 2 = true ∧
      write ⟨[(2, ⟨.innerBptree, [9, 4, 11]⟩)], 1, none, []⟩ 2 0 1 1
        (fun _ _ _ _ => 0) = .ok 0) :=
  ⟨⟨by decide,
    (write_requires_inner_root ⟨[(2, ⟨.normal, []⟩)], 1, none, []⟩ 2 0 1 1
      (fun _ _ _ _ => 0)).1 (by decide)⟩,
   ⟨by decide,
    (write_requires_inner_root ⟨[(2, ⟨.innerBptree, [9, 4, 11]⟩)], 1, none, []⟩
      2 0 1 1 (fun _ _ _ _ => 0)).2 (by decide)⟩⟩

/-! ### Claim C9 -/

/-- **C9.** For the default (non-overridden) `ColumnBase` and every row
index: `is_nullable` returns false, `is_null` returns false, `set_null`
fails with the distinguishable `column_not_nullable` error (the
type-mismatch class of `LogicError`) without modifying the column, and
`set_string` fails with the `type_mismatch` error without modifying the
column (both throw before touching any state, so the column state `col` is
untouched on the error path). -/
theorem columnbase_defaults (σ : Type) (ndx : Nat) (col : σ) (s : String) :
    ColumnBase.is_nullable = false ∧
    ColumnBase.is_null ndx = false ∧
    ColumnBase.set_null ndx col = .error LogicError.column_not_nullable ∧
    ColumnBase.set_string ndx s col = .error LogicError.type_mismatch ∧
    LogicError.column_not_nullable ≠ LogicError.type_mismatch :=
  ⟨rfl, rfl, rfl, rfl, by decide⟩

/-! ### The effectful builder simulates the pure one

With no failure injected (`budget = none`), `buildE` succeeds, returns the
same remaining count as the pure `build`, and its `create_leaf` call log
grows by exactly the pure result tree's leaf sizes — so the pure
`leafSizes` really are "the sizes passed to `create_leaf`, in call
order". -/

theorem allocNode_none_ok {t : ArrType} {st : St} {r : Nat} {st' : St}
    (hb : st.budget = none) (h : allocNode t st = .ok (r, st')) :
    st'.budget = none ∧ st'.calls = st.calls := by
  rw [allocNode_none hb] at h
  have he := Except.ok.inj h
  have hst : st' = { st with
      store := (2 * st.next + 2, ⟨t, []⟩) :: st.store
      next := st.next + 1 } := (congrArg Prod.snd he).symm
  rw [hst]
  exact ⟨hb, rfl⟩

theorem allocNode_none_not_error {t : ArrType} {st stE : St}
    (hb : st.budget = none) (h : allocNode t st = .error stE) : False := by
  rw [allocNode_none hb] at h
  cases h

theorem appendSlot_none_ok {r : Nat} {v : Int} {st st' : St}
    (hb : st.budget = none) (h : appendSlot r v st = .ok st') :
    st'.budget = none ∧ st'.calls = st.calls := by
  rw [appendSlot_none hb] at h
  have he := Except.ok.inj h
  rw [← he]
  exact ⟨hb, rfl⟩

theorem appendSlot_none_not_error {r : Nat} {v : Int} {st stE : St}
    (hb : st.budget = none) (h : appendSlot r v st = .error stE) : False := by
  rw [appendSlot_none hb] at h
  cases h

theorem createLeafE_none_ok {n : Nat} {st : St} {r : Nat} {st' : St}
    (hb : st.budget = none) (h : createLeafE n st = .ok (r, st')) :
    st'.budget = none ∧ st'.calls = st.calls ++ [n] := by
  unfold createLeafE at h
  exact allocNode_none_ok
    (show ({ st with calls := st.calls ++ [n] } : St).budget = none from hb) h

theorem createLeafE_none_not_error {n : Nat} {st stE : St}
    (hb : st.budget = none) (h : createLeafE n st = .error stE) : False := by
  unfold createLeafE at h
  exact allocNode_none_not_error
    (show ({ st with calls := st.calls ++ [n] } : St).budget = none from hb) h

/-- Simulation contract for one recursive `build` call: with no failure
injected the effectful step succeeds, computes the pure step's remaining
count, and logs exactly the pure subtree's leaf sizes. -/
def StepSim (stepP : Nat → BpNode × Nat)
    (stepE : Nat → St → Except St (Nat × Nat × St)) : Prop :=
  ∀ rest st, st.budget = none →
    ∃ r st', stepE rest st = .ok (r, (stepP rest).2, st') ∧
      st'.budget = none ∧ st'.calls = st.calls ++ (stepP rest).1.leafSizes

theorem buildChildrenE_sim (stepP : Nat → BpNode × Nat)
    (stepE : Nat → St → Except St (Nat × Nat × St))
    (hsim : StepSim stepP stepE) (inner : Nat) :
    ∀ slots rest st, st.budget = none →
      ∃ st', buildChildrenE stepE inner slots rest st
          = .ok ((buildChildren stepP slots rest).2, st') ∧
        st'.budget = none ∧
        st'.calls = st.calls
          ++ BpNode.leafSizesList (buildChildren stepP slots rest).1 := by
  intro slots
  induction slots with
  | zero =>
    intro rest st hb
    refine ⟨st, rfl, hb, ?_⟩
    simp [buildChildren, BpNode.leafSizesList]
  | succ slots ih =>
    intro rest st hb
    by_cases hr : rest = 0
    · subst hr
      refine ⟨st, ?_, hb, ?_⟩
      · simp [buildChildrenE, buildChildren]
      · simp [buildChildren, BpNode.leafSizesList]
    · rcases hP : stepP rest with ⟨c, rest1⟩
      obtain ⟨child, st1, hstep, hb1, hcalls1⟩ := hsim rest st hb
      rw [hP] at hstep hcalls1
      have hstep' : stepE rest st = Except.ok (child, rest1, st1) := hstep
      have hcalls1' : st1.calls = st.calls ++ BpNode.leafSizes c := hcalls1
      rcases ha : appendSlot inner ((child : Nat) : Int) st1 with stE | st2
      · exact (appendSlot_none_not_error hb1 ha).elim
      · obtain ⟨hb2, hc2⟩ := appendSlot_none_ok hb1 ha
        obtain ⟨st3, hrec, hb3, hcalls3⟩ := ih rest1 st2 hb2
        rcases hC : buildChildren stepP slots rest1 with ⟨cs, rest2⟩
        rw [hC] at hrec hcalls3
        have hrec' : buildChildrenE stepE inner slots rest1 st2
            = Except.ok (rest2, st3) := hrec
        have hcalls3' : st3.calls = st2.calls ++ BpNode.leafSizesList cs :=
          hcalls3
        have hunfE : buildChildrenE stepE inner (slots + 1) rest st
            = buildChildrenE stepE inner slots rest1 st2 := by
          simp only [buildChildrenE, if_neg hr, hstep', ha]
        have hunfP : buildChildren stepP (slots + 1) rest
            = (c :: cs, rest2) := by
          simp only [buildChildren, if_neg hr, hP, hC]
        refine ⟨st3, ?_, hb3, ?_⟩
        · rw [hunfP]
          show buildChildrenE stepE inner (slots + 1) rest st
            = Except.ok (rest2, st3)
          rw [hunfE, hrec']
        · rw [hunfP]
          show st3.calls = st.calls ++ BpNode.leafSizesList (c :: cs)
          rw [hcalls3', hc2, hcalls1']
          rw [show BpNode.leafSizesList (c :: cs)
              = BpNode.leafSizes c ++ BpNode.leafSizesList cs by
            simp [BpNode.leafSizesList]]
          rw [List.append_assoc]

theorem buildStageE_sim (stepP : Nat → BpNode × Nat)
    (stepE : Nat → St → Except St (Nat × Nat × St))
    (hsim : StepSim stepP stepE) (F h nodeE rest orig : Nat) (st : St)
    (hb : st.budget = none) :
    ∃ r' st', buildStageE stepE F h nodeE rest orig st
        = .ok (r', (buildChildren stepP (F - 1) rest).2, st') ∧
      st'.budget = none ∧
      st'.calls = st.calls
        ++ BpNode.leafSizesList (buildChildren stepP (F - 1) rest).1 := by
  rcases hal : allocNode .innerBptree st with stE | p
  · exact (allocNode_none_not_error hb hal).elim
  · rcases p with ⟨inner, st1⟩
    obtain ⟨hb1, hc1⟩ := allocNode_none_ok hb hal
    rcases ha1 : appendSlot inner (1 + 2 * (F ^ h : Int)) st1 with stE | st2
    · exact (appendSlot_none_not_error hb1 ha1).elim
    · obtain ⟨hb2, hc2⟩ := appendSlot_none_ok hb1 ha1
      rcases ha2 : appendSlot inner ((nodeE : Nat) : Int) st2 with stE | st3
      · exact (appendSlot_none_not_error hb2 ha2).elim
      · obtain ⟨hb3, hc3⟩ := appendSlot_none_ok hb2 ha2
        obtain ⟨st4, hch, hb4, hcalls4⟩ := buildChildrenE_sim stepP stepE
          hsim inner (F - 1) rest st3 hb3
        rcases hC : buildChildren stepP (F - 1) rest with ⟨cs, rest2⟩
        rw [hC] at hch hcalls4
        have hch' : buildChildrenE stepE inner (F - 1) rest st3
            = Except.ok (rest2, st4) := hch
        have hcalls4' : st4.calls = st3.calls ++ BpNode.leafSizesList cs :=
          hcalls4
        rcases ha3 : appendSlot inner (1 + 2 * ((orig - rest2 : Nat) : Int))
          st4 with stE | st5
        · exact (appendSlot_none_not_error hb4 ha3).elim
        · obtain ⟨hb5, hc5⟩ := appendSlot_none_ok hb4 ha3
          refine ⟨inner, st5, ?_, hb5, ?_⟩
          · show buildStageE stepE F h nodeE rest orig st
              = Except.ok (inner, rest2, st5)
            simp only [buildStageE, hal, ha1, ha2, hch', ha3]
          · show st5.calls = st.calls ++ BpNode.leafSizesList cs
            rw [hc5, hcalls4', hc3, hc2, hc1]

theorem buildFE_sim (F : Nat) : ∀ fh, StepSim (buildF F fh) (buildFE F fh) := by
  intro fh
  induction fh with
  | zero =>
    intro rest st hb
    rcases hcl : createLeafE (min F rest) st with stE | p
    · exact (createLeafE_none_not_error hb hcl).elim
    · rcases p with ⟨leaf, st1⟩
      obtain ⟨hb1, hc1⟩ := createLeafE_none_ok hb hcl
      refine ⟨leaf, st1, ?_, hb1, ?_⟩
      · show buildFE F 0 rest st = Except.ok (leaf, rest - min F rest, st1)
        simp only [buildFE, hcl]
      · rw [hc1]
        show st.calls ++ [min F rest]
          = st.calls ++ BpNode.leafSizes (BpNode.leaf (min F rest))
        rw [show BpNode.leafSizes (BpNode.leaf (min F rest)) = [min F rest] by
          simp [BpNode.leafSizes]]
  | succ fh ih =>
    rcases fh with _ | h
    · show StepSim (buildF F 1) (buildFE F 1)
      intro rest st hb
      rcases hcl : createLeafE (min F rest) st with stE | p
      · exact (createLeafE_none_not_error hb hcl).elim
      · rcases p with ⟨leaf, st1⟩
        obtain ⟨hb1, hc1⟩ := createLeafE_none_ok hb hcl
        refine ⟨leaf, st1, ?_, hb1, ?_⟩
        · show buildFE F 1 rest st = Except.ok (leaf, rest - min F rest, st1)
          simp only [buildFE, hcl]
        · rw [hc1]
          show st.calls ++ [min F rest]
            = st.calls ++ BpNode.leafSizes (BpNode.leaf (min F rest))
          rw [show BpNode.leafSizes (BpNode.leaf (min F rest))
              = [min F rest] by simp [BpNode.leafSizes]]
    · show StepSim (buildF F (h + 2)) (buildFE F (h + 2))
      intro rest st hb
      rcases hP : buildF F (h + 1) rest with ⟨nodeP, rr⟩
      obtain ⟨nodeE, st1, hsp, hb1, hcalls1⟩ := ih rest st hb
      rw [hP] at hsp hcalls1
      have hsp' : buildFE F (h + 1) rest st = Except.ok (nodeE, rr, st1) :=
        hsp
      have hcalls1' : st1.calls = st.calls ++ BpNode.leafSizes nodeP :=
        hcalls1
      obtain ⟨r2, st2, hst, hb2, hcalls2⟩ := buildStageE_sim
        (fun q => buildF F (h + 1) q) (fun q => buildFE F (h + 1) q) ih
        F (h + 1) nodeE rr rest st1 hb1
      rcases hC : buildChildren (fun q => buildF F (h + 1) q) (F - 1) rr
        with ⟨cs, rest2⟩
      rw [hC] at hst hcalls2
      have hst' : buildStageE (fun q => buildFE F (h + 1) q) F (h + 1) nodeE
          rr rest st1 = Except.ok (r2, rest2, st2) := hst
      have hcalls2' : st2.calls = st1.calls ++ BpNode.leafSizesList cs :=
        hcalls2
      have hunf0 : buildF F (h + 2) rest
          = ((.inner (F ^ (h + 1))
              ((buildF F (h + 1) rest).1
                :: (buildChildren (fun q => buildF F (h + 1) q) (F - 1)
                  (buildF F (h + 1) rest).2).1)
              (rest - (buildChildren (fun q => buildF F (h + 1) q) (F - 1)
                (buildF F (h + 1) rest).2).2),
            (buildChildren (fun q => buildF F (h + 1) q) (F - 1)
              (buildF F (h + 1) rest).2).2) : BpNode × Nat) := rfl
      rw [hP] at hunf0
      have hunf1 : buildF F (h + 2) rest
          = ((.inner (F ^ (h + 1))
              (nodeP :: (buildChildren (fun q => buildF F (h + 1) q) (F - 1)
                rr).1)
              (rest - (buildChildren (fun q => buildF F (h + 1) q) (F - 1)
                rr).2),
            (buildChildren (fun q => buildF F (h + 1) q) (F - 1) rr).2)
            : BpNode × Nat) := hunf0
      rw [hC] at hunf1
      have hunfP : buildF F (h + 2) rest
          = (.inner (F ^ (h + 1)) (nodeP :: cs) (rest - rest2), rest2) :=
        hunf1
      have hunfE0 : buildFE F (h + 2) rest st
          = (match buildFE F (h + 1) rest st with
            | Except.error st' => Except.error st'
            | Except.ok (node, r, st') =>
                buildStageE (fun q => buildFE F (h + 1) q) F (h + 1) node r
                  rest st') := rfl
      rw [hsp'] at hunfE0
      have hunfE : buildFE F (h + 2) rest st
          = buildStageE (fun q => buildFE F (h + 1) q) F (h + 1) nodeE rr
              rest st1 := hunfE0
      refine ⟨r2, st2, ?_, hb2, ?_⟩
      · rw [hunfP]
        show buildFE F (h + 2) rest st = Except.ok (r2, rest2, st2)
        rw [hunfE, hst']
      · rw [hunfP]
        show st2.calls = st.calls ++ BpNode.leafSizes
          (BpNode.inner (F ^ (h + 1)) (nodeP :: cs) (rest - rest2))
        rw [show BpNode.leafSizes
            (BpNode.inner (F ^ (h + 1)) (nodeP :: cs) (rest - rest2))
            = BpNode.leafSizes nodeP ++ BpNode.leafSizesList cs by
          simp [BpNode.leafSizes, BpNode.leafSizesList]]
        rw [hcalls2', hcalls1', List.append_assoc]

theorem build0GoE_sim (F : Nat) :
    ∀ fuel (nodeE h rest orig : Nat) (nodeP : BpNode) (st : St),
      st.budget = none →
      ∃ r st' X, build0GoE F fuel nodeE h rest orig st
          = .ok (r, (build0Go F fuel nodeP h rest orig).2, st') ∧
        st'.budget = none ∧ st'.calls = st.calls ++ X ∧
        (build0Go F fuel nodeP h rest orig).1.leafSizes
          = nodeP.leafSizes ++ X := by
  intro fuel
  induction fuel with
  | zero =>
    intro nodeE h rest orig nodeP st hb
    rcases rest with _ | rr
    · refine ⟨nodeE, st, [], rfl, hb, by simp, ?_⟩
      show BpNode.leafSizes nodeP = nodeP.leafSizes ++ []
      simp
    · refine ⟨nodeE, st, [], rfl, hb, by simp, ?_⟩
      show BpNode.leafSizes nodeP = nodeP.leafSizes ++ []
      simp
  | succ fuel ih =>
    intro nodeE h rest orig nodeP st hb
    rcases rest with _ | rr
    · refine ⟨nodeE, st, [], rfl, hb, by simp, ?_⟩
      show BpNode.leafSizes nodeP = nodeP.leafSizes ++ []
      simp
    · obtain ⟨r1, st1, hst, hb1, hcalls1⟩ := buildStageE_sim
        (fun q => buildF F h q) (fun q => buildFE F h q) (buildFE_sim F h)
        F h nodeE (rr + 1) orig st hb
      rcases hC : buildChildren (fun q => buildF F h q) (F - 1) (rr + 1)
        with ⟨cs, rest2⟩
      rw [hC] at hst hcalls1
      have hst' : buildStageE (fun q => buildFE F h q) F h nodeE (rr + 1)
          orig st = Except.ok (r1, rest2, st1) := hst
      have hcalls1' : st1.calls = st.calls ++ BpNode.leafSizesList cs :=
        hcalls1
      obtain ⟨r2, st2, X, hrec, hb2, hcalls2, hsizes⟩ := ih r1 (h + 1) rest2
        orig (.inner (F ^ h) (nodeP :: cs) (orig - rest2)) st1 hb1
      have hunf0 : build0Go F (fuel + 1) nodeP h (rr + 1) orig
          = build0Go F fuel
              (.inner (F ^ h)
                (nodeP :: (buildChildren (fun q => buildF F h q) (F - 1)
                  (rr + 1)).1)
                (orig - (buildChildren (fun q => buildF F h q) (F - 1)
                  (rr + 1)).2))
              (h + 1)
              (buildChildren (fun q => buildF F h q) (F - 1) (rr + 1)).2
              orig := rfl
      rw [hC] at hunf0
      have hunfP : build0Go F (fuel + 1) nodeP h (rr + 1) orig
          = build0Go F fuel (.inner (F ^ h) (nodeP :: cs) (orig - rest2))
              (h + 1) rest2 orig := hunf0
      have hunfE0 : build0GoE F (fuel + 1) nodeE h (rr + 1) orig st
          = (match buildStageE (fun q => buildFE F h q) F h nodeE (rr + 1)
              orig st with
            | Except.error st' => Except.error st'
            | Except.ok (node', rest', st') =>
                build0GoE F fuel node' (h + 1) rest' orig st') := rfl
      rw [hst'] at hunfE0
      have hunfE : build0GoE F (fuel + 1) nodeE h (rr + 1) orig st
          = build0GoE F fuel r1 (h + 1) rest2 orig st1 := hunfE0
      refine ⟨r2, st2, BpNode.leafSizesList cs ++ X, ?_, hb2, ?_, ?_⟩
      · rw [hunfE, hunfP, hrec]
      · rw [hcalls2, hcalls1', List.append_assoc]
      · rw [hunfP, hsizes]
        rw [show BpNode.leafSizes
            (BpNode.inner (F ^ h) (nodeP :: cs) (orig - rest2))
            = BpNode.leafSizes nodeP ++ BpNode.leafSizesList cs by
          simp [BpNode.leafSizes, BpNode.leafSizesList]]
        rw [List.append_assoc]

/-- With no failure injected, the effectful `buildE` succeeds, writes back
the pure `build`'s remaining count, and its `create_leaf` call log grows by
exactly the pure result tree's leaf sizes, in order. -/
theorem buildE_sim (F n : Nat) (st : St) (hb : st.budget = none) :
    ∃ r st', buildE F n 0 st = .ok (r, (build F n 0).2, st') ∧
      st'.budget = none ∧
      st'.calls = st.calls ++ (build F n 0).1.leafSizes := by
  rcases hcl : createLeafE (min F n) st with stE | p
  · exact (createLeafE_none_not_error hb hcl).elim
  · rcases p with ⟨leaf, st1⟩
    obtain ⟨hb1, hc1⟩ := createLeafE_none_ok hb hcl
    obtain ⟨r, st2, X, hrec, hb2, hcalls2, hsizes⟩ := build0GoE_sim F n leaf
      1 (n - min F n) n (.leaf (min F n)) st1 hb1
    refine ⟨r, st2, ?_, hb2, ?_⟩
    · show (match createLeafE (min F n) st with
          | Except.error st' => Except.error st'
          | Except.ok (lf, st') => build0GoE F n lf 1 (n - min F n) n st')
        = Except.ok (r,
            (build0Go F n (BpNode.leaf (min F n)) 1 (n - min F n) n).2, st2)
      rw [hcl]
      show build0GoE F n leaf 1 (n - min F n) n st1
        = Except.ok (r,
            (build0Go F n (BpNode.leaf (min F n)) 1 (n - min F n) n).2, st2)
      exact hrec
    · show st2.calls = st.calls
        ++ ((build0Go F n (BpNode.leaf (min F n)) 1
          (n - min F n) n).1).leafSizes
      rw [hsizes, hcalls2, hc1]
      rw [show BpNode.leafSizes (BpNode.leaf (min F n)) = [min F n] by
        simp [BpNode.leafSizes]]
      rw [List.append_assoc]

/-! ### Claim C1 -/

/-- **C1.** For every element count `n ≥ 1` and fan-out
`F = REALM_MAX_BPNODE_SIZE ≥ 2`, `build(&n, 0, alloc, handler)` consumes the
entire count (writes back 0), the recorded total-element count of the root
(its closing inline slot, when the root is an inner node) equals `n`, and
the sizes passed to `create_leaf`, in call order, sum to `n` with every
size at most `F`: in a failure-free run of the effectful model the
`create_leaf` call log grows by exactly the pure result tree's leaf sizes,
so those leaf sizes are the `create_leaf` requests in call order. -/
theorem build_bulk_totals (F n : Nat) (hF : 2 ≤ F) (hn : 1 ≤ n) :
    (build F n 0).2 = 0 ∧
    ((build F n 0).1.isInner = true → (build F n 0).1.total = n) ∧
    ((build F n 0).1.leafSizes).sum = n ∧
    (∀ s ∈ (build F n 0).1.leafSizes, s ≤ F) ∧
    ∀ st : St, st.budget = none →
      ∃ r st', buildE F n 0 st = .ok (r, 0, st') ∧
        st'.calls = st.calls ++ (build F n 0).1.leafSizes := by
  have hspec := build0Go_spec F hF n (.leaf (min F n)) 1 (n - min F n) n
    (le_refl 1) (by rw [Nat.pow_one]) rfl rfl
    (by show [min F n].sum = n - (n - min F n); simp; omega)
    (by intro s hs; simp [BpNode.leafSizes] at hs; omega)
    (by show min F n = n - (n - min F n); omega)
    (by omega)
  obtain ⟨h1, _, _, h4, h5, h6, _, _⟩ := hspec
  have hbuild : build F n 0
      = build0Go F n (.leaf (min F n)) 1 (n - min F n) n := by
    simp [build]
  have hmain : (build F n 0).2 = 0 := by
    rw [hbuild]
    exact h1
  refine ⟨hmain, ?_, ?_, ?_, ?_⟩
  · rw [hbuild]
    exact fun _ => h6
  · rw [hbuild]
    exact h4
  · rw [hbuild]
    exact h5
  · intro st hb
    obtain ⟨r, st', heq, _, hcalls⟩ := buildE_sim F n st hb
    rw [hmain] at heq
    exact ⟨r, st', heq, hcalls⟩

/-- Witness for C1 at `F = 3`, `n = 7`. -/
theorem build_bulk_totals_witness :
    (2 ≤ 3 ∧ 1 ≤ 7) ∧
    ((build 3 7 0).2 = 0 ∧
      ((build 3 7 0).1.isInner = true → (build 3 7 0).1.total = 7) ∧
      ((build 3 7 0).1.leafSizes).sum = 7 ∧
      (∀ s ∈ (build 3 7 0).1.leafSizes, s ≤ 3) ∧
      ∀ st : St, st.budget = none →
        ∃ r st', buildE 3 7 0 st = .ok (r, 0, st') ∧
          st'.calls = st.calls ++ (build 3 7 0).1.leafSizes) :=
  ⟨⟨by decide, by decide⟩, build_bulk_totals 3 7 (by decide) (by decide)⟩

end Realm

